import Mathlib

/-! Verification of the keygen keyboard-layout optimizer core.

A shallow embedding of the Rust sources `layout.rs`, `penalty.rs` and
`simulator.rs` of the keygen repository, together with theorems settling the
frozen claims about them.

Modelling conventions:
* `f64` penalty values are modelled as `ℚ` (all constants in the source are
  small decimal literals; sums and comparisons are exact).
* Rust arrays (`KeyMap<T>` = `[T; 50]`, the 128-slot position map, the 34-entry
  `BASE_PENALTY` initializer) are modelled as `List`s indexed with `getD`.
* Rust panics (failed slicing, `panic!`, `assert!`, `unwrap` on `None`) are
  modelled by `Option`, with `none` for the panic.
* Corpus strings are lists of `Char`; where the source indexes a `&str` by
  byte positions we model the byte structure of UTF-8 explicitly
  (`charUtf8Len`, `byteSlice`), because the source mixes character counts
  and byte indices.
-/

set_option maxRecDepth 100000

namespace Keygen

/-! ## layout.rs: types -/

inductive Finger where
  | Thumb | Index | Middle | Ring | Pinky
deriving DecidableEq, Repr

inductive Hand where
  | Left | Right
deriving DecidableEq, Repr

inductive Row where
  | Top | Home | Bottom | ThumbTop | ThumbHome
deriving DecidableEq, Repr

structure KeyPress where
  kc     : Char
  pos    : Nat
  finger : Finger
  hand   : Hand
  row    : Row
  center : Bool
  outer  : Bool
deriving DecidableEq, Repr

/-- A layer of a layout: the 50-slot character array `KeyMap<char>`. -/
abbrev Layer := List Char

/-- `Layout(Layer, Layer)`: unshifted and shifted layers. -/
structure Layout where
  lower : Layer
  upper : Layer
deriving DecidableEq, Repr

/-! ## layout.rs: statics -/

def INIT_LOWER : Layer :=
  ['\x00', 'j', 'c', 'y', 'f', 'k',   'z', 'l', ',', 'u', 'q', '=',
   '\x00', 'r', 's', 't', 'h', 'd',   'm', 'n', 'a', 'i', 'o', '\'',
   '\x00', '/', 'v', 'g', 'p', 'b',   'x', 'w', '.', ';', '-', '\x00',
   '\x00', '\x00', '\x00', 'e', '\x00',   '\x00', ' ', '\x00', '\x00', '\x00',
   '\x00', '\x00', '\x00', '\x00']

def INIT_UPPER : Layer :=
  ['\x00', 'J', 'C', 'Y', 'F', 'K',   'Z', 'L', '<', 'U', 'Q', '+',
   '\x00', 'R', 'S', 'T', 'H', 'D',   'M', 'N', 'A', 'I', 'O', '"',
   '\x00', '?', 'V', 'G', 'P', 'B',   'X', 'W', '>', ':', '_', '\x00',
   '\x00', '\x00', '\x00', 'E', '\x00',   '\x00', ' ', '\x00', '\x00', '\x00',
   '\x00', '\x00', '\x00', '\x00']

def INIT_LAYOUT : Layout := ⟨INIT_LOWER, INIT_UPPER⟩

/-- `LAYOUT_MASK_SWAP_OFFSETS`: translation from swappable-subset index to the
physical position offset (49 entries). -/
def LAYOUT_MASK_SWAP_OFFSETS : List Nat :=
  [0, 0, 0, 0, 0, 0,    0, 0, 0, 0, 0,
   1, 1, 1, 1, 1, 1,    1, 1, 1, 1, 1, 1,
   1, 1, 1, 1, 1, 1,    1, 1, 1, 1, 1, 1,
      1, 1, 1, 1, 1,    1, 1, 1, 1, 1,
            1, 1,       1, 1]

def LAYOUT_MASK_NUM_SWAPPABLE : Nat := 49

/-- Translation of a swappable-subset index to the physical position:
`i + LAYOUT_MASK_SWAP_OFFSETS[i]`. -/
def swapIdxToPos (i : Nat) : Nat := i + LAYOUT_MASK_SWAP_OFFSETS.getD i 0

/-- The set of physical positions eligible for swapping (the image of
`swapIdxToPos` on `0..49`). -/
def isSwappablePos (p : Nat) : Prop := ∃ i < LAYOUT_MASK_NUM_SWAPPABLE, swapIdxToPos i = p

instance (p : Nat) : Decidable (isSwappablePos p) := by
  unfold isSwappablePos; infer_instance

def KEY_FINGERS : List Finger :=
  [.Pinky, .Pinky, .Ring, .Middle, .Index, .Index,   .Index, .Index, .Middle, .Ring, .Pinky, .Pinky,
   .Pinky, .Pinky, .Ring, .Middle, .Index, .Index,   .Index, .Index, .Middle, .Ring, .Pinky, .Pinky,
   .Pinky, .Pinky, .Ring, .Middle, .Index, .Index,   .Index, .Index, .Middle, .Ring, .Pinky, .Pinky,
   .Thumb, .Thumb, .Thumb, .Thumb, .Thumb, .Thumb, .Thumb, .Thumb, .Thumb, .Thumb,
   .Thumb, .Thumb, .Thumb, .Thumb]

def KEY_HANDS : List Hand :=
  [.Left, .Left, .Left, .Left, .Left, .Left,   .Right, .Right, .Right, .Right, .Right, .Right,
   .Left, .Left, .Left, .Left, .Left, .Left,   .Right, .Right, .Right, .Right, .Right, .Right,
   .Left, .Left, .Left, .Left, .Left, .Left,   .Right, .Right, .Right, .Right, .Right, .Right,
   .Left, .Left, .Left, .Left, .Left, .Right, .Right, .Right, .Right, .Right,
   .Left, .Left, .Right, .Right]

def KEY_ROWS : List Row :=
  [.Top, .Top, .Top, .Top, .Top, .Top,   .Top, .Top, .Top, .Top, .Top, .Top,
   .Home, .Home, .Home, .Home, .Home, .Home,   .Home, .Home, .Home, .Home, .Home, .Home,
   .Bottom, .Bottom, .Bottom, .Bottom, .Bottom, .Bottom,   .Bottom, .Bottom, .Bottom, .Bottom, .Bottom, .Bottom,
   .ThumbHome, .ThumbHome, .ThumbHome, .ThumbHome, .ThumbHome, .ThumbHome, .ThumbHome, .ThumbHome, .ThumbHome, .ThumbHome,
   .ThumbTop, .ThumbTop, .ThumbTop, .ThumbTop]

def KEY_CENTER_COLUMN : List Bool :=
  [false, false, false, false, false, true,    true, false, false, false, false, false,
   false, false, false, false, false, true,    true, false, false, false, false, false,
   false, false, false, false, false, true,    true, false, false, false, false, false,
          false, false, false, false, false,   false, false, false, false, false,
                              false, false,    false, false]

/-- Modelled from the spec: `penalty.rs` reads a field `outer` of `KeyPress`
("an extra 5 points for each outer key"), but `layout.rs` declares no such
field and no `KEY_OUTER` table; the spec describes it as "an 'outer' flag for
extreme pinky positions".  We model it as true exactly at the outermost
column of each non-thumb row (positions 0, 11, 12, 23, 24, 35).  No claim
depends on the exact choice of this table. -/
def KEY_OUTER : List Bool :=
  [true, false, false, false, false, false,   false, false, false, false, false, true,
   true, false, false, false, false, false,   false, false, false, false, false, true,
   true, false, false, false, false, false,   false, false, false, false, false, true,
          false, false, false, false, false,  false, false, false, false, false,
                              false, false,   false, false]

def fingerAt (i : Nat) : Finger := KEY_FINGERS.getD i .Thumb
def handAt (i : Nat) : Hand := KEY_HANDS.getD i .Left
def rowAt (i : Nat) : Row := KEY_ROWS.getD i .Home
def centerAt (i : Nat) : Bool := KEY_CENTER_COLUMN.getD i false
def outerAt (i : Nat) : Bool := KEY_OUTER.getD i false

/-! ## layout.rs: the position map -/

/-- The 128-slot array `LayoutPosMap([Option<KeyPress>; 128])`. -/
abbrev PosMap := List (Option KeyPress)

/-- Loop body of `Layer::fill_position_map`: for `(i, c)` with
`c < 128 as char`, write a `KeyPress` into slot `c as usize`. -/
def posMapStep (m : PosMap) (ic : Nat × Char) : PosMap :=
  if ic.2.toNat < 128 then
    m.set ic.2.toNat
      (some { kc := ic.2, pos := ic.1, finger := fingerAt ic.1,
              hand := handAt ic.1, row := rowAt ic.1,
              center := centerAt ic.1, outer := outerAt ic.1 })
  else m

/-- `Layer::fill_position_map`. -/
def fillPositionMap (layer : Layer) (map : PosMap) : PosMap :=
  layer.enum.foldl posMapStep map

/-- `Layout::get_position_map`: fill from the lower layer, then the upper. -/
def getPositionMap (l : Layout) : PosMap :=
  fillPositionMap l.upper (fillPositionMap l.lower (List.replicate 128 none))

/-- `LayoutPosMap::get_key_position`. -/
def getKeyPosition (map : PosMap) (kc : Char) : Option KeyPress :=
  if kc.toNat < 128 then map.getD kc.toNat none else none

/-! ## penalty.rs: quartad extraction

`prepare_quartad_list` iterates over `string.chars().enumerate()` (character
indices) but slices `&string[range]` (byte indices).  We model UTF-8 byte
lengths and byte-based slicing explicitly; a slice whose endpoints are not
character boundaries panics in Rust and is `none` here. -/

/-- Number of UTF-8 bytes of a character. -/
def charUtf8Len (c : Char) : Nat :=
  if c.toNat < 0x80 then 1
  else if c.toNat < 0x800 then 2
  else if c.toNat < 0x10000 then 3
  else 4

/-- `&s[start..stop]` on the UTF-8 byte representation of `s`; `none` when an
endpoint is out of range or not a character boundary (a Rust panic). -/
def byteSlice (s : List Char) (start stop : Nat) : Option (List Char) :=
  match s with
  | [] => if start = 0 ∧ stop = 0 then some [] else none
  | c :: rest =>
    if start = 0 then
      if stop = 0 then some []
      else if charUtf8Len c ≤ stop then
        (byteSlice rest 0 (stop - charUtf8Len c)).map (c :: ·)
      else none
    else
      if charUtf8Len c ≤ start then
        byteSlice rest (start - charUtf8Len c) (stop - charUtf8Len c)
      else none

/-- The quartad frequency table `QuartadList(HashMap<&str, usize>)`, as an
association list. -/
abbrev QuartadList := List (List Char × Nat)

/-- `quartads.entry(quartad).or_insert(0); *entry += 1`. -/
def bumpQuartad : QuartadList → List Char → QuartadList
  | [], k => [(k, 1)]
  | (k', n) :: rest, k =>
    if k' = k then (k', n + 1) :: rest else (k', n) :: bumpQuartad rest k

/-- Loop body of `prepare_quartad_list` for one `(i, c)` of
`string.chars().enumerate()`: on a mapped character, extend the window to
`i + 1`, clip its start to length 4, slice and count; on an unmapped
character, reset the window to `(i+1)..(i+1)`. -/
def qStep (s : List Char) (pm : PosMap)
    (acc : Option (Nat × QuartadList)) (ic : Nat × Char) :
    Option (Nat × QuartadList) :=
  acc.bind fun st =>
    match getKeyPosition pm ic.2 with
    | some _ =>
      let stop := ic.1 + 1
      let start := if stop > 3 ∧ st.1 < stop - 4 then stop - 4 else st.1
      (byteSlice s start stop).map fun q => (start, bumpQuartad st.2 q)
    | none => some (ic.1 + 1, st.2)

/-- `prepare_quartad_list`: single scan maintaining a trailing window
`range = start..stop`; `none` models a Rust slicing panic. -/
def prepareQuartadList (s : List Char) (pm : PosMap) : Option QuartadList :=
  (s.enum.foldl (qStep s pm) (some (0, ([] : QuartadList)))).map (·.2)

/-! ## penalty.rs: scoring tables -/

/-- The (34-entry) `BASE_PENALTY` table.  The source declares it with type
`KeyMap<f64>` (an `[f64; 50]`) but initializes only 34 entries, while key
positions range over `0..50`; `baseAt` below makes the out-of-range default
explicit so that the mismatch is provable (see the claim about lookup
bounds). -/
def BASE_PENALTY : List ℚ :=
  [3.50, 0.25, 0.25, 1.50, 2.50,    2.50, 1.50, 0.25, 0.25, 3.50, 4.50,
   1.25, 0.00, 0.00, 0.00, 1.50,    1.50, 0.00, 0.00, 0.00, 1.25, 4.00,
   3.00, 2.00, 1.50, 1.00, 2.00,    2.00, 1.00, 1.50, 2.00, 3.00,
                             0.00,    0.00]

structure KeyPenalty where
  name : String
deriving Repr

structure KeyPenaltyResult where
  name      : String
  total     : ℚ
  high_keys : List (List Char × ℚ)
deriving Repr

/-- `penalty::init()`: the 12 named rules, in index order. -/
def initPenalties : List KeyPenalty :=
  [⟨"base"⟩, ⟨"alternating hand"⟩, ⟨"same finger"⟩, ⟨"stretch"⟩,
   ⟨"same hand"⟩, ⟨"roll reversal"⟩, ⟨"roll out"⟩, ⟨"roll in"⟩,
   ⟨"long jump sandwich"⟩, ⟨"twist"⟩, ⟨"pinky/ring alternation"⟩,
   ⟨"same key"⟩]

def isRollOut (curr prev : Finger) : Bool :=
  match curr with
  | .Thumb  => false
  | .Index  => prev = .Thumb
  | .Middle => prev = .Thumb || prev = .Index
  | .Ring   => prev ≠ .Pinky && prev ≠ .Ring
  | .Pinky  => prev ≠ .Pinky

def isRollIn (curr prev : Finger) : Bool :=
  match curr with
  | .Thumb  => prev ≠ .Thumb
  | .Index  => prev ≠ .Thumb && prev ≠ .Index
  | .Middle => prev = .Pinky || prev = .Ring
  | .Ring   => prev = .Pinky
  | .Pinky  => false

/-- `calculate_same_finger_penalty`.  `none` models the
`assert!(false, "All index finger pairs must be covered by now")` and
`assert!(!curr.center, ...)` panics; the asserts that merely restate the
call-site guard (same hand, same finger, different key) are omitted. -/
def calculateSameFingerPenalty (curr old1 : KeyPress) : Option ℚ :=
  if curr.finger = .Index then
    -- qwerty: fg gf hj jh
    if curr.pos = 14 ∧ old1.pos = 15 ∨ curr.pos = 15 ∧ old1.pos = 14 ∨
       curr.pos = 16 ∧ old1.pos = 17 ∨ curr.pos = 17 ∧ old1.pos = 16 then some 0
    -- qwerty: gr rg hu uh
    else if curr.pos = 15 ∧ old1.pos = 3 ∨ curr.pos = 3 ∧ old1.pos = 15 ∨
       curr.pos = 16 ∧ old1.pos = 6 ∨ curr.pos = 6 ∧ old1.pos = 16 then some 0
    -- qwerty: bf fb nj jn
    else if curr.pos = 26 ∧ old1.pos = 14 ∨ curr.pos = 14 ∧ old1.pos = 26 ∨
       curr.pos = 27 ∧ old1.pos = 17 ∨ curr.pos = 17 ∧ old1.pos = 27 then some 1
    -- qwerty: rt tr yu uy
    else if curr.pos = 3 ∧ old1.pos = 4 ∨ curr.pos = 4 ∧ old1.pos = 3 ∨
       curr.pos = 5 ∧ old1.pos = 6 ∨ curr.pos = 6 ∧ old1.pos = 5 then some 3
    -- qwerty: vf fv mj jm
    else if curr.pos = 25 ∧ old1.pos = 14 ∨ curr.pos = 14 ∧ old1.pos = 25 ∨
       curr.pos = 28 ∧ old1.pos = 17 ∨ curr.pos = 17 ∧ old1.pos = 28 then some 3
    -- qwerty: fr rf ju uj
    else if curr.pos = 14 ∧ old1.pos = 3 ∨ curr.pos = 3 ∧ old1.pos = 14 ∨
       curr.pos = 17 ∧ old1.pos = 6 ∨ curr.pos = 6 ∧ old1.pos = 17 then some 4
    -- qwerty: br rb nu un
    else if curr.pos = 26 ∧ old1.pos = 3 ∨ curr.pos = 3 ∧ old1.pos = 26 ∨
       curr.pos = 27 ∧ old1.pos = 6 ∨ curr.pos = 6 ∧ old1.pos = 27 then some 6
    -- qwerty: bv vb nm mn
    else if curr.pos = 26 ∧ old1.pos = 25 ∨ curr.pos = 25 ∧ old1.pos = 26 ∨
       curr.pos = 27 ∧ old1.pos = 28 ∨ curr.pos = 28 ∧ old1.pos = 27 then some 7
    -- qwerty: vr rv mu um
    else if curr.pos = 25 ∧ old1.pos = 3 ∨ curr.pos = 3 ∧ old1.pos = 25 ∨
       curr.pos = 28 ∧ old1.pos = 6 ∨ curr.pos = 6 ∧ old1.pos = 28 then some 8
    -- qwerty: ft tf jy yj
    else if curr.pos = 14 ∧ old1.pos = 4 ∨ curr.pos = 4 ∧ old1.pos = 14 ∨
       curr.pos = 17 ∧ old1.pos = 5 ∨ curr.pos = 5 ∧ old1.pos = 17 then some 10
    -- qwerty: vg gv mh hm
    else if curr.pos = 25 ∧ old1.pos = 15 ∨ curr.pos = 15 ∧ old1.pos = 25 ∨
       curr.pos = 28 ∧ old1.pos = 16 ∨ curr.pos = 16 ∧ old1.pos = 28 then some 10
    -- qwerty: bg gb nh hn
    else if curr.pos = 26 ∧ old1.pos = 15 ∨ curr.pos = 15 ∧ old1.pos = 26 ∨
       curr.pos = 27 ∧ old1.pos = 16 ∨ curr.pos = 16 ∧ old1.pos = 27 then some 15
    -- qwerty: gt tg hy yh
    else if curr.pos = 15 ∧ old1.pos = 4 ∨ curr.pos = 4 ∧ old1.pos = 15 ∨
       curr.pos = 16 ∧ old1.pos = 5 ∨ curr.pos = 5 ∧ old1.pos = 16 then some 15
    -- qwerty: bt tb ny yn
    else if curr.pos = 26 ∧ old1.pos = 4 ∨ curr.pos = 4 ∧ old1.pos = 26 ∨
       curr.pos = 27 ∧ old1.pos = 5 ∨ curr.pos = 5 ∧ old1.pos = 27 then some 20
    -- qwerty: vt tv my ym
    else if curr.pos = 25 ∧ old1.pos = 4 ∨ curr.pos = 4 ∧ old1.pos = 25 ∨
       curr.pos = 28 ∧ old1.pos = 5 ∨ curr.pos = 5 ∧ old1.pos = 28 then some 25
    else none
  else if curr.center then none
  else
    let long_jump := (curr.row = .Top ∧ old1.row = .Bottom) ∨
                     (curr.row = .Bottom ∧ old1.row = .Top)
    some (0 + (if long_jump then 15 else 5)
            + (if curr.outer then 5 else 0)
            + (if old1.outer then 5 else 0))

/-- `calculate_stretch_penalty` (the dense different-finger lookup keyed by
position pairs; default 0). -/
def calculateStretchPenalty (curr old1 : KeyPress) : ℚ :=
  -- 1 point penalties
  if curr.pos = 25 ∧ old1.pos = 2 ∨ curr.pos = 2 ∧ old1.pos = 25 ∨
     curr.pos = 28 ∧ old1.pos = 7 ∨ curr.pos = 7 ∧ old1.pos = 28 then 1
  else if curr.pos = 25 ∧ old1.pos = 1 ∨ curr.pos = 1 ∧ old1.pos = 25 ∨
     curr.pos = 28 ∧ old1.pos = 8 ∨ curr.pos = 8 ∧ old1.pos = 28 then 1
  else if curr.pos = 26 ∧ old1.pos = 11 ∨ curr.pos = 11 ∧ old1.pos = 26 ∨
     curr.pos = 27 ∧ old1.pos = 20 ∨ curr.pos = 20 ∧ old1.pos = 27 then 1
  else if curr.pos = 15 ∧ old1.pos = 0 ∨ curr.pos = 0 ∧ old1.pos = 15 ∨
     curr.pos = 16 ∧ old1.pos = 9 ∨ curr.pos = 9 ∧ old1.pos = 16 then 1
  else if curr.pos = 26 ∧ old1.pos = 22 ∨ curr.pos = 22 ∧ old1.pos = 26 ∨
     curr.pos = 27 ∧ old1.pos = 31 ∨ curr.pos = 31 ∧ old1.pos = 27 then 1
  else if curr.pos = 15 ∧ old1.pos = 11 ∨ curr.pos = 11 ∧ old1.pos = 15 ∨
     curr.pos = 16 ∧ old1.pos = 20 ∨ curr.pos = 20 ∧ old1.pos = 16 then 1
  else if curr.pos = 4 ∧ old1.pos = 0 ∨ curr.pos = 0 ∧ old1.pos = 4 ∨
     curr.pos = 5 ∧ old1.pos = 9 ∨ curr.pos = 9 ∧ old1.pos = 5 then 1
  else if curr.pos = 7 ∧ old1.pos = 21 ∨ curr.pos = 21 ∧ old1.pos = 7 then 1
  else if curr.pos = 6 ∧ old1.pos = 21 ∨ curr.pos = 21 ∧ old1.pos = 6 then 1
  else if curr.pos = 4 ∧ old1.pos = 11 ∨ curr.pos = 11 ∧ old1.pos = 4 ∨
     curr.pos = 5 ∧ old1.pos = 20 ∨ curr.pos = 20 ∧ old1.pos = 5 then 1
  else if curr.pos = 15 ∧ old1.pos = 22 ∨ curr.pos = 22 ∧ old1.pos = 15 ∨
     curr.pos = 16 ∧ old1.pos = 31 ∨ curr.pos = 31 ∧ old1.pos = 16 then 1
  else if curr.pos = 26 ∧ old1.pos = 12 ∨ curr.pos = 12 ∧ old1.pos = 26 ∨
     curr.pos = 27 ∧ old1.pos = 19 ∨ curr.pos = 19 ∧ old1.pos = 27 then 1
  else if curr.pos = 15 ∧ old1.pos = 1 ∨ curr.pos = 1 ∧ old1.pos = 15 ∨
     curr.pos = 16 ∧ old1.pos = 8 ∨ curr.pos = 8 ∧ old1.pos = 16 then 1
  else if curr.pos = 26 ∧ old1.pos = 23 ∨ curr.pos = 23 ∧ old1.pos = 26 ∨
     curr.pos = 27 ∧ old1.pos = 30 ∨ curr.pos = 30 ∧ old1.pos = 27 then 1
  else if curr.pos = 15 ∧ old1.pos = 12 ∨ curr.pos = 12 ∧ old1.pos = 15 ∨
     curr.pos = 16 ∧ old1.pos = 19 ∨ curr.pos = 19 ∧ old1.pos = 16 then 1
  else if curr.pos = 4 ∧ old1.pos = 1 ∨ curr.pos = 1 ∧ old1.pos = 4 ∨
     curr.pos = 5 ∧ old1.pos = 8 ∨ curr.pos = 8 ∧ old1.pos = 5 then 1
  else if curr.pos = 17 ∧ old1.pos = 10 ∨ curr.pos = 10 ∧ old1.pos = 17 then 1
  else if curr.pos = 28 ∧ old1.pos = 21 ∨ curr.pos = 21 ∧ old1.pos = 28 then 1
  else if curr.pos = 8 ∧ old1.pos = 21 ∨ curr.pos = 21 ∧ old1.pos = 8 then 1
  -- 2 point penalties
  else if curr.pos = 2 ∧ old1.pos = 22 ∨ curr.pos = 22 ∧ old1.pos = 2 ∨
     curr.pos = 7 ∧ old1.pos = 31 ∨ curr.pos = 31 ∧ old1.pos = 7 then 2
  else if curr.pos = 3 ∧ old1.pos = 22 ∨ curr.pos = 22 ∧ old1.pos = 3 ∨
     curr.pos = 6 ∧ old1.pos = 31 ∨ curr.pos = 31 ∧ old1.pos = 6 then 2
  else if curr.pos = 26 ∧ old1.pos = 13 ∨ curr.pos = 13 ∧ old1.pos = 26 ∨
     curr.pos = 27 ∧ old1.pos = 18 ∨ curr.pos = 18 ∧ old1.pos = 27 then 2
  else if curr.pos = 15 ∧ old1.pos = 2 ∨ curr.pos = 2 ∧ old1.pos = 15 ∨
     curr.pos = 16 ∧ old1.pos = 7 ∨ curr.pos = 7 ∧ old1.pos = 16 then 2
  else if curr.pos = 26 ∧ old1.pos = 24 ∨ curr.pos = 24 ∧ old1.pos = 26 ∨
     curr.pos = 27 ∧ old1.pos = 29 ∨ curr.pos = 29 ∧ old1.pos = 27 then 2
  else if curr.pos = 15 ∧ old1.pos = 13 ∨ curr.pos = 13 ∧ old1.pos = 15 ∨
     curr.pos = 16 ∧ old1.pos = 18 ∨ curr.pos = 18 ∧ old1.pos = 16 then 2
  else if curr.pos = 4 ∧ old1.pos = 2 ∨ curr.pos = 2 ∧ old1.pos = 4 ∨
     curr.pos = 5 ∧ old1.pos = 7 ∨ curr.pos = 7 ∧ old1.pos = 5 then 2
  else if curr.pos = 23 ∧ old1.pos = 11 ∨ curr.pos = 11 ∧ old1.pos = 23 ∨
     curr.pos = 30 ∧ old1.pos = 20 ∨ curr.pos = 20 ∧ old1.pos = 30 then 2
  else if curr.pos = 12 ∧ old1.pos = 0 ∨ curr.pos = 0 ∧ old1.pos = 12 ∨
     curr.pos = 19 ∧ old1.pos = 9 ∨ curr.pos = 9 ∧ old1.pos = 19 then 2
  else if curr.pos = 25 ∧ old1.pos = 0 ∨ curr.pos = 0 ∧ old1.pos = 25 ∨
     curr.pos = 28 ∧ old1.pos = 9 ∨ curr.pos = 9 ∧ old1.pos = 28 then 2
  -- 3 point penalties
  else if curr.pos = 26 ∧ old1.pos = 1 ∨ curr.pos = 1 ∧ old1.pos = 26 ∨
     curr.pos = 27 ∧ old1.pos = 8 ∨ curr.pos = 8 ∧ old1.pos = 27 then 3
  else if curr.pos = 15 ∧ old1.pos = 23 ∨ curr.pos = 23 ∧ old1.pos = 15 ∨
     curr.pos = 16 ∧ old1.pos = 30 ∨ curr.pos = 30 ∧ old1.pos = 16 then 3
  else if curr.pos = 4 ∧ old1.pos = 12 ∨ curr.pos = 12 ∧ old1.pos = 4 ∨
     curr.pos = 5 ∧ old1.pos = 19 ∨ curr.pos = 19 ∧ old1.pos = 5 then 3
  else if curr.pos = 3 ∧ old1.pos = 23 ∨ curr.pos = 23 ∧ old1.pos = 3 ∨
     curr.pos = 6 ∧ old1.pos = 30 ∨ curr.pos = 30 ∧ old1.pos = 6 then 3
  else if curr.pos = 28 ∧ old1.pos = 10 ∨ curr.pos = 10 ∧ old1.pos = 28 then 3
  else if curr.pos = 26 ∧ old1.pos = 0 ∨ curr.pos = 0 ∧ old1.pos = 26 ∨
     curr.pos = 27 ∧ old1.pos = 9 ∨ curr.pos = 9 ∧ old1.pos = 27 then 3
  else if curr.pos = 18 ∧ old1.pos = 10 ∨ curr.pos = 10 ∧ old1.pos = 18 then 3
  else if curr.pos = 29 ∧ old1.pos = 21 ∨ curr.pos = 21 ∧ old1.pos = 29 then 3
  else if curr.pos = 30 ∧ old1.pos = 21 ∨ curr.pos = 21 ∧ old1.pos = 30 then 3
  else if curr.pos = 19 ∧ old1.pos = 10 ∨ curr.pos = 10 ∧ old1.pos = 19 then 3
  else if curr.pos = 5 ∧ old1.pos = 10 ∨ curr.pos = 10 ∧ old1.pos = 5 then 3
  else if curr.pos = 16 ∧ old1.pos = 21 ∨ curr.pos = 21 ∧ old1.pos = 16 then 3
  -- 4 point penalties
  else if curr.pos = 4 ∧ old1.pos = 22 ∨ curr.pos = 22 ∧ old1.pos = 4 ∨
     curr.pos = 5 ∧ old1.pos = 31 ∨ curr.pos = 31 ∧ old1.pos = 5 then 4
  else if curr.pos = 4 ∧ old1.pos = 13 ∨ curr.pos = 13 ∧ old1.pos = 4 ∨
     curr.pos = 5 ∧ old1.pos = 18 ∨ curr.pos = 18 ∧ old1.pos = 5 then 4
  else if curr.pos = 15 ∧ old1.pos = 24 ∨ curr.pos = 24 ∧ old1.pos = 15 ∨
     curr.pos = 16 ∧ old1.pos = 29 ∨ curr.pos = 29 ∧ old1.pos = 16 then 4
  else if curr.pos = 2 ∧ old1.pos = 23 ∨ curr.pos = 23 ∧ old1.pos = 2 ∨
     curr.pos = 7 ∧ old1.pos = 30 ∨ curr.pos = 30 ∧ old1.pos = 7 then 4
  else if curr.pos = 3 ∧ old1.pos = 24 ∨ curr.pos = 24 ∧ old1.pos = 3 ∨
     curr.pos = 6 ∧ old1.pos = 29 ∨ curr.pos = 29 ∧ old1.pos = 6 then 4
  else if curr.pos = 24 ∧ old1.pos = 1 ∨ curr.pos = 1 ∧ old1.pos = 24 ∨
     curr.pos = 29 ∧ old1.pos = 8 ∨ curr.pos = 8 ∧ old1.pos = 29 then 4
  else if curr.pos = 27 ∧ old1.pos = 21 ∨ curr.pos = 21 ∧ old1.pos = 27 then 4
  else if curr.pos = 16 ∧ old1.pos = 10 ∨ curr.pos = 10 ∧ old1.pos = 16 then 4
  -- 5 point penalties
  else if curr.pos = 5 ∧ old1.pos = 21 ∨ curr.pos = 21 ∧ old1.pos = 5 then 5
  else if curr.pos = 4 ∧ old1.pos = 23 ∨ curr.pos = 23 ∧ old1.pos = 4 ∨
     curr.pos = 5 ∧ old1.pos = 30 ∨ curr.pos = 30 ∧ old1.pos = 5 then 5
  -- 6 point penalties
  else if curr.pos = 4 ∧ old1.pos = 24 ∨ curr.pos = 24 ∧ old1.pos = 4 ∨
     curr.pos = 5 ∧ old1.pos = 29 ∨ curr.pos = 29 ∧ old1.pos = 5 then 6
  -- 7 point penalties
  else if curr.pos = 26 ∧ old1.pos = 2 ∨ curr.pos = 2 ∧ old1.pos = 26 ∨
     curr.pos = 27 ∧ old1.pos = 7 ∨ curr.pos = 7 ∧ old1.pos = 27 then 7
  else if curr.pos = 24 ∧ old1.pos = 0 ∨ curr.pos = 0 ∧ old1.pos = 24 ∨
     curr.pos = 29 ∧ old1.pos = 9 ∨ curr.pos = 9 ∧ old1.pos = 29 then 7
  -- 8 point penalties
  else if curr.pos = 27 ∧ old1.pos = 10 ∨ curr.pos = 10 ∧ old1.pos = 27 then 8
  -- 9 point penalties
  else if curr.pos = 23 ∧ old1.pos = 0 ∨ curr.pos = 0 ∧ old1.pos = 23 ∨
     curr.pos = 30 ∧ old1.pos = 9 ∨ curr.pos = 9 ∧ old1.pos = 30 then 9
  else if curr.pos = 30 ∧ old1.pos = 10 ∨ curr.pos = 10 ∧ old1.pos = 30 then 9
  else if curr.pos = 29 ∧ old1.pos = 10 ∨ curr.pos = 10 ∧ old1.pos = 29 then 9
  -- 10 point penalties
  else if curr.pos = 1 ∧ old1.pos = 22 ∨ curr.pos = 22 ∧ old1.pos = 1 ∨
     curr.pos = 8 ∧ old1.pos = 31 ∨ curr.pos = 31 ∧ old1.pos = 8 then 10
  else 0

/-- `calculate_same_key_penalty` (asserts restating the call-site guard
omitted). -/
def calculateSameKeyPenalty (curr : KeyPress) (_old1 : KeyPress) : ℚ :=
  match curr.finger with
  | .Pinky => 3
  | _ => 0

/-! ## penalty.rs: penalize -/

/-- `*result[idx].high_keys.entry(slice).or_insert(0.0) += penalty`. -/
def bumpHighKeys : List (List Char × ℚ) → List Char → ℚ → List (List Char × ℚ)
  | [], k, p => [(k, p)]
  | (k', v) :: rest, k, p =>
    if k' = k then (k', v + p) :: rest else (k', v) :: bumpHighKeys rest k p

/-- `*result[idx].high_keys.entry(slice).or_insert(0.0) += penalty;
result[idx].total += penalty`. -/
def bumpResult : List KeyPenaltyResult → Nat → List Char → ℚ → List KeyPenaltyResult
  | [], _, _, _ => []
  | r :: rest, 0, slice, p =>
    { r with total := r.total + p,
             high_keys := bumpHighKeys r.high_keys slice p } :: rest
  | r :: rest, idx + 1, slice, p => r :: bumpResult rest idx slice p

/-- The recurring accumulation pattern of `penalize`: always add the penalty
to the running total; when `cond` holds (`detailed`, possibly conjoined with
`penalty > 0`), also add it to rule bucket `idx` and to that bucket's
per-substring map. -/
def applyRule (cond : Bool) (idx : Nat) (slice : List Char) (p : ℚ)
    (acc : ℚ × List KeyPenaltyResult) : ℚ × List KeyPenaltyResult :=
  (acc.1 + p, if cond then bumpResult acc.2 idx slice p else acc.2)

/-- The `if curr.hand == old1.hand` section of `penalize` (rules 2, 3, 6, 7
and 11).  `none` models a panic inside `calculate_same_finger_penalty`. -/
def twoKeyRules (string : List Char) (cnt : ℚ) (curr o1 : KeyPress)
    (detailed : Bool) (acc : ℚ × List KeyPenaltyResult) :
    Option (ℚ × List KeyPenaltyResult) :=
  if curr.hand = o1.hand then
    let slice2 := string.drop (string.length - 2)
    -- 2: same finger
    let afterSF : Option (ℚ × List KeyPenaltyResult) :=
      if curr.finger = o1.finger ∧ curr.pos ≠ o1.pos then
        (calculateSameFingerPenalty curr o1).map fun pen0 =>
          applyRule (detailed && decide (0 < pen0 * cnt)) 2 slice2 (pen0 * cnt) acc
      else some acc
    afterSF.map fun acc1 =>
      -- 3: stretch
      let acc2 := if curr.finger ≠ o1.finger then
          applyRule (detailed && decide (0 < calculateStretchPenalty curr o1 * cnt)) 3
            slice2 (calculateStretchPenalty curr o1 * cnt) acc1
        else acc1
      -- 6: roll out
      let acc3 := if isRollOut curr.finger o1.finger then
          applyRule detailed 6 slice2 (0.125 * cnt) acc2
        else acc2
      -- 7: roll in
      let acc4 := if isRollIn curr.finger o1.finger then
          applyRule detailed 7 slice2 (-0.125 * cnt) acc3
        else acc3
      -- 11: same key
      if curr.pos = o1.pos then
        applyRule (detailed && decide (0 < calculateSameKeyPenalty curr o1 * cnt)) 11
          slice2 (calculateSameKeyPenalty curr o1 * cnt) acc4
      else acc4
  else some acc

/-- The `if curr.hand == old1.hand && old1.hand == old2.hand` section of
`penalize` (rules 5, 9 and 10). -/
def threeKeyRules (string : List Char) (cnt : ℚ) (curr o1 o2 : KeyPress)
    (detailed : Bool) (acc : ℚ × List KeyPenaltyResult) :
    ℚ × List KeyPenaltyResult :=
  if curr.hand = o1.hand ∧ o1.hand = o2.hand then
    let slice3 := string.drop (string.length - 3)
    -- 5: roll reversal
    let acc6 := if (curr.finger = .Middle ∧ o1.finger = .Pinky ∧ o2.finger = .Ring) ∨
                   (curr.finger = .Ring ∧ o1.finger = .Pinky ∧ o2.finger = .Middle) then
        applyRule detailed 5 slice3 (20 * cnt) acc
      else acc
    -- 9: twist
    let acc7 := if ((curr.row = .Top ∧ o1.row = .Home ∧ o2.row = .Bottom) ∨
                    (curr.row = .Bottom ∧ o1.row = .Home ∧ o2.row = .Top)) ∧
                   ((isRollOut curr.finger o1.finger ∧ isRollOut o1.finger o2.finger) ∨
                    (isRollIn curr.finger o1.finger ∧ isRollIn o1.finger o2.finger)) then
        applyRule detailed 9 slice3 (10 * cnt) acc6
      else acc6
    -- 10: pinky/ring alternation
    if (curr.finger = .Ring ∧ o1.finger = .Pinky ∧ o2.finger = .Ring) ∨
       (curr.finger = .Pinky ∧ o1.finger = .Ring ∧ o2.finger = .Pinky) then
      applyRule detailed 10 slice3 (15 * cnt) acc7
    else acc7
  else acc

/-- Rule 8 (long jump sandwich) of `penalize`. -/
def sandwichRule (string : List Char) (cnt : ℚ) (curr o2 : KeyPress)
    (detailed : Bool) (acc : ℚ × List KeyPenaltyResult) :
    ℚ × List KeyPenaltyResult :=
  if curr.hand = o2.hand ∧ curr.finger = o2.finger then
    if curr.row = .Top ∧ o2.row = .Bottom ∨ curr.row = .Bottom ∧ o2.row = .Top then
      applyRule detailed 8 (string.drop (string.length - 3)) (3 * cnt) acc
    else acc
  else acc

/-- Rules 4 (same hand) and 1 (alternating hand) of `penalize`. -/
def fourKeyRules (string : List Char) (cnt : ℚ) (curr o1 o2 o3 : KeyPress)
    (detailed : Bool) (acc : ℚ × List KeyPenaltyResult) :
    ℚ × List KeyPenaltyResult :=
  if curr.hand = o1.hand ∧ o1.hand = o2.hand ∧ o2.hand = o3.hand then
    applyRule detailed 4 (string.drop (string.length - 4)) (0.1 * cnt) acc
  else if curr.hand ≠ o1.hand ∧ o1.hand ≠ o2.hand ∧ o2.hand ≠ o3.hand then
    applyRule detailed 1 (string.drop (string.length - 4)) (0.5 * cnt) acc
  else acc

/-- `penalize`: scores one quartad (with multiplicity `count`) against the
current and up to three preceding key presses, accumulating the total and,
in detailed mode, the per-rule buckets.  `none` models a panic inside
`calculate_same_finger_penalty`. -/
def penalize (string : List Char) (count : Nat) (curr : KeyPress)
    (old1 old2 old3 : Option KeyPress) (res : List KeyPenaltyResult)
    (detailed : Bool) : Option (ℚ × List KeyPenaltyResult) :=
  let cnt : ℚ := (count : ℚ)
  -- 0: base penalty
  let acc0 := applyRule detailed 0 (string.drop (string.length - 1))
                (BASE_PENALTY.getD curr.pos 0 * cnt) (0, res)
  match old1 with
  | none => some acc0
  | some o1 =>
    (twoKeyRules string cnt curr o1 detailed acc0).map fun accA =>
      match old2 with
      | none => accA
      | some o2 =>
        let accB := threeKeyRules string cnt curr o1 o2 detailed accA
        let accC := sandwichRule string cnt curr o2 detailed accB
        match old3 with
        | none => accC
        | some o3 => fourKeyRules string cnt curr o1 o2 o3 detailed accC

/-- `penalty_for_quartad`: decompose the quartad into up to four trailing
key presses.  `none` models the `panic!("unreachable")` on an empty quartad
or a panic bubbling out of `penalize`. -/
def penaltyForQuartad (string : List Char) (count : Nat) (pm : PosMap)
    (res : List KeyPenaltyResult) (detailed : Bool) :
    Option (ℚ × List KeyPenaltyResult) :=
  match string.reverse.head? with
  | none => none
  | some c =>
    match getKeyPosition pm c with
    | none => some (0, res)
    | some curr =>
      penalize string count curr
        (match string.reverse[1]? with
          | some c1 => getKeyPosition pm c1
          | none => none)
        (match string.reverse[2]? with
          | some c2 => getKeyPosition pm c2
          | none => none)
        (match string.reverse[3]? with
          | some c3 => getKeyPosition pm c3
          | none => none)
        res detailed

/-- Loop body of `calculate_penalty`'s `for (string, count) in quartads`:
`total += penalty_for_quartad(...)`, threading the mutated result vector. -/
def calcStep (pm : PosMap) (detailed : Bool)
    (acc : Option (ℚ × List KeyPenaltyResult)) (sq : List Char × Nat) :
    Option (ℚ × List KeyPenaltyResult) :=
  acc.bind fun tr =>
    (penaltyForQuartad sq.1 sq.2 pm tr.2 detailed).map fun dr =>
      (tr.1 + dr.1, dr.2)

/-- `calculate_penalty`: returns `(total, total / len, per-rule results)`;
`none` models a panic while scoring some quartad. -/
def calculatePenalty (quartads : QuartadList) (len : Nat) (layout : Layout)
    (penalties : List KeyPenalty) (detailed : Bool) :
    Option (ℚ × ℚ × List KeyPenaltyResult) :=
  let result0 : List KeyPenaltyResult :=
    if detailed then penalties.map (fun p => ⟨p.name, 0, []⟩) else []
  let pm := getPositionMap layout
  (quartads.foldl (calcStep pm detailed) (some (0, result0))).map
    fun tr => (tr.1, tr.1 / (len : ℚ), tr.2)

/-! ## layout.rs: swapping and the permutation iterator -/

/-- `Layer::swap`: exchange the characters at positions `i` and `j`. -/
def swapLayer (l : Layer) (i j : Nat) : Layer :=
  let ti := l.getD i '\x00'
  let tj := l.getD j '\x00'
  (l.set i tj).set j ti

/-- A structural swap applied identically to both layers. -/
def swapLayoutPositions (L : Layout) (i j : Nat) : Layout :=
  ⟨swapLayer L.lower i j, swapLayer L.upper i j⟩

/-- The body of the `while i < self.swap_idx.len()` loop of
`LayoutPermutations::next`: apply the swaps described by consecutive pairs of
`swap_idx`, translated through `LAYOUT_MASK_SWAP_OFFSETS`, to a clone of the
original layout. -/
def applySwapIdxPairs (L : Layout) : List Nat → Layout
  | a :: b :: rest =>
    applySwapIdxPairs (swapLayoutPositions L (swapIdxToPos a) (swapIdxToPos b)) rest
  | _ => L

/-- Iterator state of `LayoutPermutations`. -/
structure PermState where
  orig     : Layout
  swap_idx : List Nat
  started  : Bool
deriving DecidableEq, Repr

/-- `LayoutPermutations::new`. -/
def permInit (L : Layout) (depth : Nat) : PermState :=
  ⟨L, List.replicate (2 * depth) 0, false⟩

/-- The `for (i, e) in self.swap_idx.iter_mut().enumerate()` advance loop:
find the first index `i` with `e + 1 < LAYOUT_MASK_NUM_SWAPPABLE - i`,
increment it, and report `(new vector, i, new value)`. -/
def advanceIdx : List Nat → Nat → Option (List Nat × Nat × Nat)
  | [], _ => none
  | e :: rest, i =>
    if e + 1 < LAYOUT_MASK_NUM_SWAPPABLE - i then some ((e + 1) :: rest, i, e + 1)
    else match advanceIdx rest (i + 1) with
      | some (rest', idx, val) => some (e :: rest', idx, val)
      | none => none

/-- `for i in 0..idx { self.swap_idx[i] = val + idx - i }`. -/
def setBelowIdx (sw : List Nat) (idx val : Nat) : List Nat :=
  sw.enum.map fun ie => if ie.1 < idx then val + idx - ie.1 else ie.2

/-- The pure swap-index part of `LayoutPermutations::next` (the advance does
not read the stored layout). -/
def permNextIdx (swapIdx : List Nat) (started : Bool) : Option (List Nat) :=
  let adv : Option (List Nat × Nat × Nat) :=
    if started then advanceIdx swapIdx 0
    else some (swapIdx, 1, 0)
  match adv with
  | none => none
  | some (sw, idx, val) => some (setBelowIdx sw idx val)

/-- `LayoutPermutations::next`, split into the state advance (this function)
and the layout built from the new state (`permYield`); the source computes
both inside `next`. -/
def permNext (st : PermState) : Option PermState :=
  (permNextIdx st.swap_idx st.started).map fun sw =>
    { st with swap_idx := sw, started := true }

/-- The layout yielded together with the state `st` (a fresh clone of the
original with all swaps of `st.swap_idx` applied). -/
def permYield (st : PermState) : Layout :=
  applySwapIdxPairs st.orig st.swap_idx

/-- The list of successor states produced by repeatedly calling `next`,
bounded by `fuel` calls. -/
def permStatesAux : Nat → PermState → List PermState
  | 0, _ => []
  | fuel + 1, st =>
    match permNext st with
    | none => []
    | some st' => st' :: permStatesAux fuel st'

/-- The swap-index trace alone (it is independent of the stored layout):
the successive `swap_idx` vectors produced by repeated advances. -/
def idxStatesAux : Nat → List Nat → Bool → List (List Nat)
  | 0, _, _ => []
  | fuel + 1, sw, started =>
    match permNextIdx sw started with
    | none => []
    | some sw' => sw' :: idxStatesAux fuel sw' true

/-- The swap-index vector after exactly `n` successful advances (`none` if
the iterator is exhausted before that). -/
def idxAfter : Nat → List Nat → Bool → Option (List Nat × Bool)
  | 0, sw, started => some (sw, started)
  | n + 1, sw, started =>
    match permNextIdx sw started with
    | none => none
    | some sw' => idxAfter n sw' true

/-- Fuel sufficient to exhaust the iterator: the swap-index vector, read as a
base-49 numeral, strictly increases at every advance and is bounded by
`49 ^ (2 * depth)`. -/
def permFuel (depth : Nat) : Nat := LAYOUT_MASK_NUM_SWAPPABLE ^ (2 * depth)

/-- The complete sequence of layouts yielded by
`LayoutPermutations::new(layout, depth)`. -/
def permCandidates (L : Layout) (depth : Nat) : List Layout :=
  (permStatesAux (permFuel depth) (permInit L depth)).map permYield

/-! ## simulator.rs: the best-layouts list -/

structure BestLayoutsEntry where
  layout  : Layout
  penalty : ℚ
deriving DecidableEq, Repr

/-- `BestLayoutsEntry::cmp` via `partial_cmp` on penalties (`ℚ` is a total
order, so the `None => Ordering::Equal` fallback for NaN never fires). -/
def entryCmp (a b : BestLayoutsEntry) : Ordering :=
  if a.penalty < b.penalty then .lt
  else if b.penalty < a.penalty then .gt
  else .eq

/-- `list_insert_ordered`: walk the cursor forward while the new entry does
not compare `Less` to the current one, then insert before the cursor. -/
def listInsertOrdered : List BestLayoutsEntry → BestLayoutsEntry → List BestLayoutsEntry
  | [], e => [e]
  | c :: rest, e =>
    if entryCmp e c = .lt then e :: c :: rest else c :: listInsertOrdered rest e

/-- `while best_layouts.len() > top_layouts { best_layouts.pop_back(); }`,
with an explicit bound on the number of pops. -/
def popBackLoop : Nat → List BestLayoutsEntry → Nat → List BestLayoutsEntry
  | 0, l, _ => l
  | fuel + 1, l, cap => if l.length > cap then popBackLoop fuel l.dropLast cap else l

/-- The insert-then-truncate step's truncation. -/
def truncateToCap (l : List BestLayoutsEntry) (cap : Nat) : List BestLayoutsEntry :=
  popBackLoop l.length l cap

/-! ## simulator.rs: refine -/

/-- Mutable state of `refine`'s outer loop. -/
structure RefineState where
  curr        : Layout
  currPenalty : ℚ
  visited     : List Layout
deriving DecidableEq, Repr

/-- Body of `refine`'s inner `for (i, layout) in permutations.enumerate()`
loop: skip visited layouts, record new ones as visited, score them
(non-detailed) and keep the best `topLayouts` in an ordered list.  `none`
models a scoring panic. -/
def roundStep (qt : QuartadList) (len : Nat) (topLayouts : Nat)
    (acc : Option (List BestLayoutsEntry × List Layout)) (layout : Layout) :
    Option (List BestLayoutsEntry × List Layout) :=
  acc.bind fun bv =>
    if layout ∈ bv.2 then some bv
    else
      (calculatePenalty qt len layout initPenalties false).map fun p =>
        (truncateToCap (listInsertOrdered bv.1 ⟨layout, p.2.1⟩) topLayouts, layout :: bv.2)

/-- One round of `refine`'s inner loop over all permutations of the current
layout. -/
def refineRound (qt : QuartadList) (len : Nat) (topLayouts : Nat)
    (numSwaps : Nat) (st : RefineState) :
    Option (List BestLayoutsEntry × List Layout) :=
  (permCandidates st.curr numSwaps).foldl (roundStep qt len topLayouts)
    (some ([], st.visited))

/-- The tail of `refine`'s outer loop: `pop_front` the round's best candidate
(`none` models the `unwrap` panic on an empty list); stop with the current
layout as winner unless the best candidate is strictly better. -/
def stepRefine (qt : QuartadList) (len : Nat) (topLayouts numSwaps : Nat)
    (st : RefineState) : Option (RefineState ⊕ Layout) :=
  (refineRound qt len topLayouts numSwaps st).bind fun bv =>
    match bv.1.head? with
    | none => none
    | some best =>
      if st.currPenalty ≤ best.penalty then some (Sum.inr st.curr)
      else some (Sum.inl ⟨best.layout, best.penalty, bv.2⟩)

/-- `refine`'s state before the loop: score the initial layout in detailed
mode (`none` propagates a scoring panic); the visited set starts empty. -/
def refineInit (qt : QuartadList) (len : Nat) (L : Layout) : Option RefineState :=
  (calculatePenalty qt len L initPenalties true).map fun p => ⟨L, p.2.1, []⟩

/-- Status of `refine` after `n` outer-loop rounds: `some (.inl st)` still
looping, `some (.inr l)` finished with winner `l` (the layout of the final
detailed report), `none` panicked. -/
def refineStatus (qt : QuartadList) (len : Nat) (topLayouts numSwaps : Nat) :
    Nat → RefineState → Option (RefineState ⊕ Layout)
  | 0, st => some (Sum.inl st)
  | n + 1, st =>
    match refineStatus qt len topLayouts numSwaps n st with
    | some (Sum.inl s) => stepRefine qt len topLayouts numSwaps s
    | other => other

/-- Whole-run status: `refine(quartads, len, init_layout, _, _, top_layouts,
num_swaps)` observed after `n` outer-loop rounds. -/
def refineFull (qt : QuartadList) (len : Nat) (L : Layout)
    (topLayouts numSwaps : Nat) (n : Nat) : Option (RefineState ⊕ Layout) :=
  match refineInit qt len L with
  | none => none
  | some st => refineStatus qt len topLayouts numSwaps n st

/-- `refine` has stopped looping (either reported a winner or panicked). -/
def refineTerminal (o : Option (RefineState ⊕ Layout)) : Prop :=
  ∀ s : RefineState, o ≠ some (Sum.inl s)

/-- A concrete layout distinct from `INIT_LAYOUT`, used as witness data: both
layers constant. -/
def ALL_A_LAYOUT : Layout := ⟨List.replicate 50 'a', List.replicate 50 'A'⟩

/-! ## Theory: the best-layouts tracker -/

/-- Entries are ordered by penalty. -/
def entryLE (a b : BestLayoutsEntry) : Prop := a.penalty ≤ b.penalty

instance : DecidableRel entryLE := fun a b => by unfold entryLE; infer_instance

theorem mem_listInsertOrdered {l : List BestLayoutsEntry} {e x : BestLayoutsEntry} :
    x ∈ listInsertOrdered l e ↔ x = e ∨ x ∈ l := by
  induction l with
  | nil => simp [listInsertOrdered]
  | cons c rest ih =>
    by_cases h : entryCmp e c = .lt <;> simp [listInsertOrdered, h, ih] <;> tauto

theorem entryCmp_lt_iff {a b : BestLayoutsEntry} :
    entryCmp a b = .lt ↔ a.penalty < b.penalty := by
  unfold entryCmp
  by_cases h : a.penalty < b.penalty
  · simp [h]
  · by_cases h' : b.penalty < a.penalty <;> simp [h, h']

theorem pairwise_listInsertOrdered {l : List BestLayoutsEntry}
    (e : BestLayoutsEntry) (h : l.Pairwise entryLE) :
    (listInsertOrdered l e).Pairwise entryLE := by
  induction l with
  | nil => simp [listInsertOrdered]
  | cons c rest ih =>
    rcases List.pairwise_cons.mp h with ⟨hc, hrest⟩
    by_cases hlt : entryCmp e c = .lt
    · rw [listInsertOrdered, if_pos hlt]
      rw [entryCmp_lt_iff] at hlt
      refine List.pairwise_cons.mpr ⟨?_, h⟩
      intro x hx
      rcases List.mem_cons.mp hx with rfl | hx
      · exact le_of_lt hlt
      · exact le_of_lt (lt_of_lt_of_le hlt (hc x hx))
    · rw [listInsertOrdered, if_neg hlt]
      refine List.pairwise_cons.mpr ⟨?_, ih hrest⟩
      intro x hx
      rcases mem_listInsertOrdered.mp hx with rfl | hx
      · rw [entryCmp_lt_iff] at hlt
        exact le_of_not_lt hlt
      · exact hc x hx

theorem popBackLoop_eq_take {fuel cap : Nat} :
    ∀ l : List BestLayoutsEntry, l.length ≤ fuel + cap →
      popBackLoop fuel l cap = l.take cap := by
  induction fuel with
  | zero =>
    intro l hl
    simp only [Nat.zero_add] at hl
    simp [popBackLoop, List.take_of_length_le hl]
  | succ f ih =>
    intro l hl
    rw [popBackLoop]
    split
    · rename_i hgt
      have hlen : l.dropLast.length ≤ f + cap := by
        simp only [List.length_dropLast]
        omega
      rw [ih l.dropLast hlen, List.dropLast_eq_take, List.take_take]
      congr 1
      omega
    · rename_i hle
      rw [List.take_of_length_le (by omega)]

theorem truncateToCap_eq_take (l : List BestLayoutsEntry) (cap : Nat) :
    truncateToCap l cap = l.take cap :=
  popBackLoop_eq_take l (Nat.le_add_right _ _)

/-- C4: one insert-then-truncate step from any sorted list gives a list that
is sorted already after the insertion, still sorted after the truncation, and
holds at most `cap` entries. -/
theorem insert_then_truncate_invariant (l : List BestLayoutsEntry)
    (e : BestLayoutsEntry) (cap : Nat) (h : l.Pairwise entryLE) :
    (listInsertOrdered l e).Pairwise entryLE ∧
    (truncateToCap (listInsertOrdered l e) cap).Pairwise entryLE ∧
    (truncateToCap (listInsertOrdered l e) cap).length ≤ cap := by
  refine ⟨pairwise_listInsertOrdered e h, ?_, ?_⟩
  · rw [truncateToCap_eq_take]
    exact (pairwise_listInsertOrdered e h).sublist (List.take_sublist _ _)
  · rw [truncateToCap_eq_take]
    simpa using List.length_take_le _ _

theorem insert_then_truncate_invariant_witness :
    ([⟨INIT_LAYOUT, 1⟩, ⟨INIT_LAYOUT, 2⟩] : List BestLayoutsEntry).Pairwise entryLE ∧
    ((listInsertOrdered [⟨INIT_LAYOUT, 1⟩, ⟨INIT_LAYOUT, 2⟩] ⟨ALL_A_LAYOUT, 3/2⟩).Pairwise entryLE ∧
     (truncateToCap (listInsertOrdered [⟨INIT_LAYOUT, 1⟩, ⟨INIT_LAYOUT, 2⟩] ⟨ALL_A_LAYOUT, 3/2⟩) 2).Pairwise entryLE ∧
     (truncateToCap (listInsertOrdered [⟨INIT_LAYOUT, 1⟩, ⟨INIT_LAYOUT, 2⟩] ⟨ALL_A_LAYOUT, 3/2⟩) 2).length ≤ 2) :=
  ⟨by decide, insert_then_truncate_invariant _ _ 2 (by decide)⟩

/-- C5 counterexample: inserting an entry whose penalty ties an existing
entry places it after the equal-valued entry, not before it. -/
theorem tie_insert_goes_after :
    listInsertOrdered [⟨INIT_LAYOUT, 1⟩] ⟨ALL_A_LAYOUT, 1⟩ =
      [⟨INIT_LAYOUT, 1⟩, ⟨ALL_A_LAYOUT, 1⟩] ∧
    listInsertOrdered [⟨INIT_LAYOUT, 1⟩] ⟨ALL_A_LAYOUT, 1⟩ ≠
      [⟨ALL_A_LAYOUT, 1⟩, ⟨INIT_LAYOUT, 1⟩] := by
  constructor
  · decide
  · decide

/-- C5 amended: the new entry is inserted at the first position whose penalty
is strictly greater than the new entry's, i.e. after all existing entries
with penalty less than or equal to it. -/
theorem listInsertOrdered_eq_takeWhile_dropWhile
    (l : List BestLayoutsEntry) (e : BestLayoutsEntry) :
    listInsertOrdered l e =
      l.takeWhile (fun c => decide (c.penalty ≤ e.penalty)) ++
        e :: l.dropWhile (fun c => decide (c.penalty ≤ e.penalty)) := by
  induction l with
  | nil => simp [listInsertOrdered]
  | cons c rest ih =>
    by_cases h : entryCmp e c = .lt
    · have hlt : e.penalty < c.penalty := entryCmp_lt_iff.mp h
      rw [listInsertOrdered, if_pos h, List.takeWhile_cons, List.dropWhile_cons]
      simp [not_le.mpr hlt]
    · have hle : c.penalty ≤ e.penalty := le_of_not_lt (fun hc => h (entryCmp_lt_iff.mpr hc))
      rw [listInsertOrdered, if_neg h, List.takeWhile_cons, List.dropWhile_cons]
      simp [hle, ih]

/-! ## Theory: the position map (claim C8) -/

theorem foldl_posMapStep_length :
    ∀ (es : List (Nat × Char)) (m : PosMap),
      (es.foldl posMapStep m).length = m.length := by
  intro es
  induction es with
  | nil => intro m; rfl
  | cons e rest ih =>
    intro m
    rw [List.foldl_cons, ih]
    unfold posMapStep
    split <;> simp

theorem foldl_posMapStep_preserves :
    ∀ (es : List (Nat × Char)) (m : PosMap) (n : Nat),
      (m.getD n none).isSome → ((es.foldl posMapStep m).getD n none).isSome := by
  intro es
  induction es with
  | nil => intro m n h; exact h
  | cons e rest ih =>
    intro m n h
    rw [List.foldl_cons]
    refine ih _ n ?_
    unfold posMapStep
    split
    · rw [List.getD_eq_getElem?_getD, List.getElem?_set]
      split
      · rename_i heq
        split
        · simp
        · rename_i hge
          rw [List.getD_eq_getElem?_getD] at h
          rw [List.getElem?_eq_none (by omega : m.length ≤ n)] at h
          simp at h
      · rwa [← List.getD_eq_getElem?_getD]
    · exact h

theorem foldl_posMapStep_writes :
    ∀ (es : List (Nat × Char)) (m : PosMap) (i : Nat) (c : Char),
      (i, c) ∈ es → c.toNat < 128 → c.toNat < m.length →
      ((es.foldl posMapStep m).getD c.toNat none).isSome := by
  intro es
  induction es with
  | nil => intro m i c h; simp at h
  | cons e rest ih =>
    intro m i c hmem hc hlen
    rw [List.foldl_cons]
    rcases List.mem_cons.mp hmem with rfl | hmem
    · refine foldl_posMapStep_preserves rest _ c.toNat ?_
      unfold posMapStep
      simp only [hc, if_pos]
      rw [List.getD_eq_getElem?_getD, List.getElem?_set_self hlen]
      simp
    · refine ih _ i c hmem hc ?_
      unfold posMapStep
      split <;> simp [hlen]

theorem getPositionMap_length (L : Layout) : (getPositionMap L).length = 128 := by
  unfold getPositionMap fillPositionMap
  rw [foldl_posMapStep_length, foldl_posMapStep_length]
  simp

/-- C8 amended: the position map has an entry for every character with code
point below 128 occurring in either layer (the null sentinel included), and
never has an entry for a character with code point 128 or above. -/
theorem getPositionMap_entries (L : Layout) (c : Char)
    (hc : c.toNat < 128) (hmem : c ∈ L.lower ∨ c ∈ L.upper) :
    (getKeyPosition (getPositionMap L) c).isSome ∧
    ∀ (L' : Layout) (d : Char), ¬ d.toNat < 128 →
      getKeyPosition (getPositionMap L') d = none := by
  constructor
  · have hmain : ((getPositionMap L).getD c.toNat none).isSome := by
      unfold getPositionMap fillPositionMap
      rcases hmem with hmem | hmem
      · refine foldl_posMapStep_preserves _ _ _ ?_
        obtain ⟨i, hi, hgi⟩ := List.getElem_of_mem hmem
        refine foldl_posMapStep_writes _ _ i c ?_ ?_ ?_
        · exact List.mem_enum_iff_getElem?.mpr (List.getElem?_eq_some.mpr ⟨hi, hgi⟩)
        · exact hc
        · simpa using hc
      · obtain ⟨i, hi, hgi⟩ := List.getElem_of_mem hmem
        refine foldl_posMapStep_writes _ _ i c ?_ ?_ ?_
        · exact List.mem_enum_iff_getElem?.mpr (List.getElem?_eq_some.mpr ⟨hi, hgi⟩)
        · exact hc
        · rw [foldl_posMapStep_length]; simpa using hc
    unfold getKeyPosition
    rw [if_pos hc]
    exact hmain
  · intro L' d hd
    unfold getKeyPosition
    rw [if_neg hd]

theorem getPositionMap_entries_witness :
    (('e').toNat < 128 ∧ ('e' ∈ INIT_LAYOUT.lower ∨ 'e' ∈ INIT_LAYOUT.upper)) ∧
    ((getKeyPosition (getPositionMap INIT_LAYOUT) 'e').isSome ∧
     ∀ (L' : Layout) (d : Char), ¬ d.toNat < 128 →
       getKeyPosition (getPositionMap L') d = none) :=
  ⟨⟨by decide, by decide⟩,
   getPositionMap_entries INIT_LAYOUT 'e' (by decide) (by decide)⟩

/-- A layout holding a character outside the representable range (code point
233) in its lower layer. -/
def E_ACUTE_LAYOUT : Layout := ⟨INIT_LOWER.set 1 'é', INIT_UPPER⟩

/-- C8 counterexample: the position map of `INIT_LAYOUT` does contain an
entry for the null sentinel, and a layout containing a non-null character
with code point at least 128 gets no entry for it. -/
theorem positionMap_null_and_high_counterexample :
    (getKeyPosition (getPositionMap INIT_LAYOUT) '\x00').isSome = true ∧
    ('é' ∈ E_ACUTE_LAYOUT.lower ∧ 'é' ≠ '\x00' ∧
      getKeyPosition (getPositionMap E_ACUTE_LAYOUT) 'é' = none) := by
  refine ⟨by decide, by decide, by decide, ?_⟩
  unfold getKeyPosition
  decide

/-! ## Theory: quartad extraction (claims C2, C9, C10) -/

/-- Sum of the counts of all recorded substrings. -/
def quartadCountSum (qs : QuartadList) : Nat := (qs.map (·.2)).sum

/-- Sum of the counts of the recorded substrings of length exactly 1. -/
def quartadLen1Sum (qs : QuartadList) : Nat :=
  ((qs.filter (fun kv => kv.1.length = 1)).map (·.2)).sum

/-- C9: `prepare_quartad_list` panics (byte-slices at a non-character
boundary) on the two-character corpus `é a`, although the unmapped `é`
should, per the spec, simply reset the window. -/
theorem prepareQuartadList_panics_on_multibyte :
    prepareQuartadList ['é', 'a'] (getPositionMap INIT_LAYOUT) = none := by
  decide

/-- C10: with the preset `INIT_LAYOUT`, the corpus `"e"` produces the quartad
`"e"`, whose current key press sits at thumb position 39, while the
`BASE_PENALTY` table initializes only 34 entries — the base-penalty lookup
`BASE_PENALTY.0[curr.pos]` is out of bounds. -/
theorem basePenalty_lookup_out_of_bounds :
    prepareQuartadList ['e'] (getPositionMap INIT_LAYOUT) = some [(['e'], 1)] ∧
    (getKeyPosition (getPositionMap INIT_LAYOUT) 'e').map (·.pos) = some 39 ∧
    BASE_PENALTY.length = 34 ∧
    ¬ (39 < BASE_PENALTY.length) := by
  refine ⟨by decide, by decide, by decide, by decide⟩

/-- On an all-single-byte string, byte slicing is character slicing. -/
theorem byteSlice_ascii (s : List Char) :
    ∀ a b : Nat, (∀ c ∈ s, charUtf8Len c = 1) → a ≤ b → b ≤ s.length →
      byteSlice s a b = some ((s.drop a).take (b - a)) := by
  induction s with
  | nil =>
    intro a b _ hab hb
    simp only [List.length_nil, Nat.le_zero] at hb
    subst hb
    simp only [Nat.le_zero] at hab
    subst hab
    simp [byteSlice]
  | cons c rest ih =>
    intro a b h1 hab hb
    have hc : charUtf8Len c = 1 := h1 c (List.mem_cons_self _ _)
    have hrest : ∀ x ∈ rest, charUtf8Len x = 1 := fun x hx => h1 x (List.mem_cons_of_mem _ hx)
    have hblen : b ≤ rest.length + 1 := by simpa using hb
    by_cases ha : a = 0
    · subst ha
      by_cases hb0 : b = 0
      · subst hb0; simp [byteSlice]
      · obtain ⟨m, rfl⟩ := Nat.exists_eq_succ_of_ne_zero hb0
        have hstep : byteSlice (c :: rest) 0 (m + 1) = (byteSlice rest 0 m).map (c :: ·) := by
          simp [byteSlice, hc]
        rw [hstep, ih 0 m hrest (Nat.zero_le _) (by omega)]
        simp [List.take_succ_cons]
    · obtain ⟨m, rfl⟩ := Nat.exists_eq_succ_of_ne_zero ha
      obtain ⟨p, rfl⟩ := Nat.exists_eq_succ_of_ne_zero (by omega : b ≠ 0)
      have hstep : byteSlice (c :: rest) (m + 1) (p + 1) = byteSlice rest m p := by
        simp [byteSlice, hc]
      rw [hstep, ih m p hrest (by omega) (by omega)]
      rw [List.drop_succ_cons]
      congr 2
      omega

theorem mem_drop_take {s : List Char} {a n : Nat} {c : Char}
    (h : c ∈ (s.drop a).take n) :
    ∃ j, a ≤ j ∧ j < a + n ∧ ∃ hj : j < s.length, s[j] = c := by
  obtain ⟨i, hi, hgi⟩ := List.getElem_of_mem h
  have hi' : i < n ∧ i < (s.drop a).length := by
    have := hi
    rw [List.length_take] at this
    omega
  have hlen : a + i < s.length := by
    have := hi'.2
    rw [List.length_drop] at this
    omega
  refine ⟨a + i, Nat.le_add_right _ _, by omega, hlen, ?_⟩
  rw [List.getElem_take, List.getElem_drop] at hgi
  exact hgi

theorem mem_bumpQuartad {qs : QuartadList} {k : List Char}
    {kv : List Char × Nat} (h : kv ∈ bumpQuartad qs k) :
    kv.1 = k ∨ ∃ kv' ∈ qs, kv'.1 = kv.1 := by
  induction qs with
  | nil =>
    simp only [bumpQuartad, List.mem_singleton] at h
    subst h; left; rfl
  | cons e rest ih =>
    obtain ⟨k', n⟩ := e
    rw [bumpQuartad] at h
    split at h
    · rcases List.mem_cons.mp h with rfl | h
      · right; exact ⟨(k', n), List.mem_cons_self _ _, rfl⟩
      · right; exact ⟨kv, List.mem_cons_of_mem _ h, rfl⟩
    · rcases List.mem_cons.mp h with rfl | h
      · right; exact ⟨(k', n), List.mem_cons_self _ _, rfl⟩
      · rcases ih h with hk | ⟨kv', hkv', hkv1⟩
        · left; exact hk
        · right; exact ⟨kv', List.mem_cons_of_mem _ hkv', hkv1⟩

theorem quartadCountSum_bump (qs : QuartadList) (k : List Char) :
    quartadCountSum (bumpQuartad qs k) = quartadCountSum qs + 1 := by
  induction qs with
  | nil => simp [bumpQuartad, quartadCountSum]
  | cons e rest ih =>
    rw [bumpQuartad]
    split
    · simp [quartadCountSum]; omega
    · simp only [quartadCountSum, List.map_cons, List.sum_cons] at ih ⊢
      omega

theorem prepare_fold_aux (s : List Char) (pm : PosMap)
    (hascii : ∀ c ∈ s, charUtf8Len c = 1) :
    ∀ (k n start : Nat) (qs : QuartadList),
      n + k = s.length → start ≤ n →
      (∀ j (hj : j < s.length), start ≤ j → j < n → (getKeyPosition pm s[j]).isSome) →
      (∀ kv ∈ qs, ∀ c ∈ kv.1, (getKeyPosition pm c).isSome) →
      ∃ start' qs',
        List.foldl (qStep s pm) (some (start, qs)) (List.enumFrom n (s.drop n)) =
          some (start', qs') ∧
        (∀ kv ∈ qs', ∀ c ∈ kv.1, (getKeyPosition pm c).isSome) ∧
        quartadCountSum qs' = quartadCountSum qs +
          ((s.drop n).filter (fun c => (getKeyPosition pm c).isSome)).length := by
  intro k
  induction k with
  | zero =>
    intro n start qs hk _ _ hqs
    have hn : n = s.length := by omega
    subst hn
    rw [List.drop_length]
    exact ⟨start, qs, rfl, hqs, by simp⟩
  | succ k ih =>
    intro n start qs hk hstart hwin hqs
    have hn : n < s.length := by omega
    rw [List.drop_eq_getElem_cons hn, List.enumFrom_cons, List.foldl_cons]
    rcases hsn : getKeyPosition pm s[n] with _ | kp
    · -- unmapped: reset the window
      have hstep : qStep s pm (some (start, qs)) (n, s[n]) = some (n + 1, qs) := by
        simp [qStep, hsn]
      rw [hstep]
      obtain ⟨start', qs', hfold, hmap, hsum⟩ :=
        ih (n + 1) (n + 1) qs (by omega) le_rfl
          (fun j hj h1 h2 => absurd (lt_of_le_of_lt h1 h2) (lt_irrefl _)) hqs
      refine ⟨start', qs', hfold, hmap, ?_⟩
      rw [hsum, List.filter_cons_of_neg (by simp [hsn])]
    · -- mapped: extend and clip the window, slice, count
      have hstart1 : (if n + 1 > 3 ∧ start < n + 1 - 4 then n + 1 - 4 else start) ≤ n ∧
          start ≤ (if n + 1 > 3 ∧ start < n + 1 - 4 then n + 1 - 4 else start) := by
        split <;> omega
      set start1 := if n + 1 > 3 ∧ start < n + 1 - 4 then n + 1 - 4 else start with hstart1def
      have hslice : byteSlice s start1 (n + 1) =
          some ((s.drop start1).take (n + 1 - start1)) :=
        byteSlice_ascii s start1 (n + 1) hascii (by omega) (by omega)
      have hstep : qStep s pm (some (start, qs)) (n, s[n]) =
          some (start1, bumpQuartad qs ((s.drop start1).take (n + 1 - start1))) := by
        simp only [qStep, Option.some_bind, hsn]
        rw [← hstart1def, hslice]
        rfl
      rw [hstep]
      have hwin1 : ∀ j (hj : j < s.length), start1 ≤ j → j < n + 1 →
          (getKeyPosition pm s[j]).isSome := by
        intro j hj h1 h2
        by_cases hjn : j = n
        · subst hjn; simp [hsn]
        · exact hwin j hj (le_trans hstart1.2 h1) (by omega)
      have hbump : ∀ kv ∈ bumpQuartad qs ((s.drop start1).take (n + 1 - start1)),
          ∀ c ∈ kv.1, (getKeyPosition pm c).isSome := by
        intro kv hkv c hc
        rcases mem_bumpQuartad hkv with hk | ⟨kv', hkv', hkv1⟩
        · rw [hk] at hc
          obtain ⟨j, hj1, hj2, hjlt, hjc⟩ := mem_drop_take hc
          subst hjc
          exact hwin1 j hjlt hj1 (by omega)
        · exact hqs kv' hkv' c (hkv1 ▸ hc)
      obtain ⟨start', qs', hfold, hmap, hsum⟩ :=
        ih (n + 1) start1 (bumpQuartad qs ((s.drop start1).take (n + 1 - start1)))
          (by omega) (by omega) hwin1 hbump
      refine ⟨start', qs', hfold, hmap, ?_⟩
      rw [hsum, quartadCountSum_bump, List.filter_cons_of_pos (by simp [hsn])]
      simp only [List.length_cons]
      omega

/-- C2 amended: on an all-single-byte corpus, `prepare_quartad_list`
completes, every recorded substring consists of mapped characters only, and
when every corpus character is mapped the counts of all recorded substrings
sum to the corpus length. -/
theorem prepareQuartadList_ascii_spec (s : List Char) (pm : PosMap)
    (hascii : ∀ c ∈ s, charUtf8Len c = 1) :
    ∃ qs, prepareQuartadList s pm = some qs ∧
      (∀ kv ∈ qs, ∀ c ∈ kv.1, (getKeyPosition pm c).isSome) ∧
      ((∀ c ∈ s, (getKeyPosition pm c).isSome) → quartadCountSum qs = s.length) := by
  obtain ⟨start', qs', hfold, hmap, hsum⟩ :=
    prepare_fold_aux s pm hascii s.length 0 0 [] (by omega) (Nat.zero_le _)
      (fun j hj h1 h2 => absurd h2 (Nat.not_lt_zero j)) (by simp)
  rw [List.drop_zero] at hfold
  refine ⟨qs', ?_, hmap, ?_⟩
  · unfold prepareQuartadList
    rw [List.enum, hfold]
    rfl
  · intro hall
    rw [List.drop_zero] at hsum
    rw [hsum]
    have : s.filter (fun c => (getKeyPosition pm c).isSome) = s :=
      List.filter_eq_self.mpr (fun c hc => by simpa using hall c hc)
    simp [quartadCountSum, this]

theorem prepareQuartadList_ascii_spec_witness :
    (∀ c ∈ (['a', 'b'] : List Char), charUtf8Len c = 1) ∧
    (∃ qs, prepareQuartadList ['a', 'b'] (getPositionMap INIT_LAYOUT) = some qs ∧
      (∀ kv ∈ qs, ∀ c ∈ kv.1,
        (getKeyPosition (getPositionMap INIT_LAYOUT) c).isSome) ∧
      ((∀ c ∈ (['a', 'b'] : List Char),
          (getKeyPosition (getPositionMap INIT_LAYOUT) c).isSome) →
        quartadCountSum qs = (['a', 'b'] : List Char).length)) :=
  ⟨by decide, prepareQuartadList_ascii_spec _ _ (by decide)⟩

/-- C2 counterexample: (i) on the corpus `é TAB a b` (the first two
characters unmapped), the byte/character index confusion records the
substrings `"\t"` and `"\ta"`, both spanning the unmapped tab character;
(ii) on the fully-mapped corpus `"ab"` the counts of length-1 substrings sum
to 1, not to the corpus length 2. -/
theorem quartad_window_counterexample :
    (prepareQuartadList ['é', '\t', 'a', 'b'] (getPositionMap INIT_LAYOUT) =
        some [(['\t'], 1), (['\t', 'a'], 1)] ∧
      getKeyPosition (getPositionMap INIT_LAYOUT) '\t' = none) ∧
    (prepareQuartadList ['a', 'b'] (getPositionMap INIT_LAYOUT) =
        some [(['a'], 1), (['a', 'b'], 1)] ∧
      (∀ c ∈ ['a', 'b'], (getKeyPosition (getPositionMap INIT_LAYOUT) c).isSome) ∧
      quartadLen1Sum [(['a'], 1), (['a', 'b'], 1)] = 1 ∧
      (['a', 'b'] : List Char).length = 2) := by
  exact ⟨⟨by decide, by decide⟩, by decide, by decide, by decide, by decide⟩

/-! ## Theory: the penalty accounting (claim C1) -/

/-- The sum of the per-rule totals of a result vector. -/
def sumTotals (res : List KeyPenaltyResult) : ℚ := (res.map (·.total)).sum

theorem length_bumpResult (res : List KeyPenaltyResult) :
    ∀ (idx : Nat) (slice : List Char) (p : ℚ),
      (bumpResult res idx slice p).length = res.length := by
  induction res with
  | nil => intro idx slice p; cases idx <;> rfl
  | cons r rest ih =>
    intro idx slice p
    cases idx with
    | zero => rfl
    | succ i => simp [bumpResult, ih]

theorem sumTotals_bumpResult (res : List KeyPenaltyResult) :
    ∀ (idx : Nat) (slice : List Char) (p : ℚ), idx < res.length →
      sumTotals (bumpResult res idx slice p) = sumTotals res + p := by
  induction res with
  | nil => intro idx slice p h; simp at h
  | cons r rest ih =>
    intro idx slice p h
    cases idx with
    | zero => simp [bumpResult, sumTotals]; ring
    | succ i =>
      have hi : i < rest.length := by simpa using h
      simp only [bumpResult, sumTotals, List.map_cons, List.sum_cons]
      have := ih i slice p hi
      simp only [sumTotals] at this
      rw [this]
      ring

theorem applyRule_fst (cond : Bool) (idx : Nat) (slice : List Char) (p : ℚ)
    (acc : ℚ × List KeyPenaltyResult) :
    (applyRule cond idx slice p acc).1 = acc.1 + p := rfl

theorem applyRule_snd_false (idx : Nat) (slice : List Char) (p : ℚ)
    (acc : ℚ × List KeyPenaltyResult) :
    (applyRule false idx slice p acc).2 = acc.2 := rfl

theorem applyRule_length (cond : Bool) (idx : Nat) (slice : List Char) (p : ℚ)
    (acc : ℚ × List KeyPenaltyResult) :
    (applyRule cond idx slice p acc).2.length = acc.2.length := by
  unfold applyRule
  split
  · exact length_bumpResult _ _ _ _
  · rfl

theorem sumTotals_applyRule_true (idx : Nat) (slice : List Char) (p : ℚ)
    (acc : ℚ × List KeyPenaltyResult) (h : idx < acc.2.length) :
    sumTotals (applyRule true idx slice p acc).2 = sumTotals acc.2 + p := by
  simp [applyRule, sumTotals_bumpResult acc.2 idx slice p h]

theorem sumTotals_applyRule_guarded (idx : Nat) (slice : List Char) (p : ℚ)
    (acc : ℚ × List KeyPenaltyResult) (h : idx < acc.2.length) (hp : 0 ≤ p) :
    sumTotals (applyRule (true && decide (0 < p)) idx slice p acc).2 =
      sumTotals acc.2 + p := by
  by_cases h0 : 0 < p
  · simpa [h0] using sumTotals_applyRule_true idx slice p acc h
  · have hp0 : p = 0 := le_antisymm (not_lt.mp h0) hp
    simp [applyRule, h0, hp0]

theorem ite_nonneg {c : Prop} [Decidable c] {a b : ℚ} (ha : 0 ≤ a) (hb : 0 ≤ b) :
    0 ≤ if c then a else b := by
  split <;> assumption

theorem ite_option_nonneg {c : Prop} [Decidable c] {x y : Option ℚ}
    (hx : ∀ v, x = some v → 0 ≤ v) (hy : ∀ v, y = some v → 0 ≤ v) :
    ∀ v, (if c then x else y) = some v → 0 ≤ v := by
  intro v hv
  split at hv
  · exact hx v hv
  · exact hy v hv

theorem some_nonneg {a : ℚ} (ha : 0 ≤ a) :
    ∀ v : ℚ, (some a : Option ℚ) = some v → 0 ≤ v := by
  intro v hv
  injection hv with hv
  exact hv ▸ ha

theorem none_nonneg : ∀ v : ℚ, (none : Option ℚ) = some v → 0 ≤ v := by
  intro v hv
  exact Option.noConfusion hv

theorem calculateStretchPenalty_nonneg (curr o1 : KeyPress) :
    0 ≤ calculateStretchPenalty curr o1 := by
  unfold calculateStretchPenalty
  repeat first | apply ite_nonneg | norm_num

theorem calculateSameFingerPenalty_nonneg (curr o1 : KeyPress) :
    ∀ v, calculateSameFingerPenalty curr o1 = some v → 0 ≤ v := by
  unfold calculateSameFingerPenalty
  repeat'
    first
    | exact none_nonneg
    | apply ite_option_nonneg
    | (refine some_nonneg ?_; split_ifs <;> norm_num)
    | (refine some_nonneg ?_; norm_num; done)

theorem calculateSameKeyPenalty_nonneg (curr o1 : KeyPress) :
    0 ≤ calculateSameKeyPenalty curr o1 := by
  unfold calculateSameKeyPenalty
  cases curr.finger <;> norm_num

/-- Relates one accumulation step of `penalize` run in detailed mode (`f`)
with the same step run in non-detailed mode (`g`): the detailed run keeps the
12-entry result vector and changes the bucket sum by exactly the change of
its running total; the non-detailed run changes its running total by the same
amount and leaves its result vector untouched. -/
def Tracks (f g : ℚ × List KeyPenaltyResult → ℚ × List KeyPenaltyResult) : Prop :=
  ∀ acc acc₂ : ℚ × List KeyPenaltyResult, acc.2.length = 12 →
    (f acc).2.length = 12 ∧
    sumTotals (f acc).2 - (f acc).1 = sumTotals acc.2 - acc.1 ∧
    (g acc₂).1 - acc₂.1 = (f acc).1 - acc.1 ∧
    (g acc₂).2 = acc₂.2

theorem tracks_id : Tracks id id :=
  fun _ _ h => ⟨h, by simp, by simp, rfl⟩

theorem tracks_applyRule (idx : Nat) (slice : List Char) (p : ℚ) (hidx : idx < 12) :
    Tracks (applyRule true idx slice p) (applyRule false idx slice p) := by
  intro acc acc₂ hlen
  refine ⟨?_, ?_, ?_, applyRule_snd_false _ _ _ _⟩
  · rw [applyRule_length]; exact hlen
  · rw [applyRule_fst, sumTotals_applyRule_true idx slice p acc (by omega)]; ring
  · rw [applyRule_fst, applyRule_fst]; ring

theorem tracks_applyRule_guarded (idx : Nat) (slice : List Char) (p : ℚ)
    (hidx : idx < 12) (hp : 0 ≤ p) :
    Tracks (applyRule (true && decide (0 < p)) idx slice p)
           (applyRule (false && decide (0 < p)) idx slice p) := by
  intro acc acc₂ hlen
  have hfalse : (false && decide (0 < p)) = false := by simp
  refine ⟨?_, ?_, ?_, ?_⟩
  · rw [applyRule_length]; exact hlen
  · rw [applyRule_fst, sumTotals_applyRule_guarded idx slice p acc (by omega) hp]; ring
  · rw [applyRule_fst, applyRule_fst]; ring
  · rw [hfalse, applyRule_snd_false]

theorem tracks_comp {f g f' g' : ℚ × List KeyPenaltyResult → ℚ × List KeyPenaltyResult}
    (h1 : Tracks f g) (h2 : Tracks f' g') :
    Tracks (fun a => f' (f a)) (fun a => g' (g a)) := by
  intro acc acc₂ hlen
  obtain ⟨l1, s1, t1, r1⟩ := h1 acc acc₂ hlen
  obtain ⟨l2, s2, t2, r2⟩ := h2 (f acc) (g acc₂) l1
  refine ⟨l2, by linarith, by linarith, r2.trans r1⟩

theorem tracks_ite (c : Prop) [Decidable c]
    {f g f' g' : ℚ × List KeyPenaltyResult → ℚ × List KeyPenaltyResult}
    (h1 : Tracks f g) (h2 : Tracks f' g') :
    Tracks (fun a => if c then f a else f' a) (fun a => if c then g a else g' a) := by
  intro acc acc₂ hlen
  by_cases hc : c
  · simpa [hc] using h1 acc acc₂ hlen
  · simpa [hc] using h2 acc acc₂ hlen

theorem tracks_threeKey (s : List Char) (cnt : ℚ) (curr o1 o2 : KeyPress) :
    Tracks (threeKeyRules s cnt curr o1 o2 true) (threeKeyRules s cnt curr o1 o2 false) :=
  tracks_ite _
    (tracks_comp
      (tracks_comp
        (tracks_ite _ (tracks_applyRule 5 _ _ (by omega)) tracks_id)
        (tracks_ite _ (tracks_applyRule 9 _ _ (by omega)) tracks_id))
      (tracks_ite _ (tracks_applyRule 10 _ _ (by omega)) tracks_id))
    tracks_id

theorem tracks_sandwich (s : List Char) (cnt : ℚ) (curr o2 : KeyPress) :
    Tracks (sandwichRule s cnt curr o2 true) (sandwichRule s cnt curr o2 false) :=
  tracks_ite _
    (tracks_ite _ (tracks_applyRule 8 _ _ (by omega)) tracks_id)
    tracks_id

theorem tracks_fourKey (s : List Char) (cnt : ℚ) (curr o1 o2 o3 : KeyPress) :
    Tracks (fourKeyRules s cnt curr o1 o2 o3 true) (fourKeyRules s cnt curr o1 o2 o3 false) :=
  tracks_ite _
    (tracks_applyRule 4 _ _ (by omega))
    (tracks_ite _ (tracks_applyRule 1 _ _ (by omega)) tracks_id)

/-- `Tracks` for the `Option`-valued two-key section. -/
def OTracks (f g : ℚ × List KeyPenaltyResult → Option (ℚ × List KeyPenaltyResult)) : Prop :=
  ∀ acc acc₂ : ℚ × List KeyPenaltyResult, acc.2.length = 12 →
    (f acc = none → g acc₂ = none) ∧
    ∀ a, f acc = some a →
      a.2.length = 12 ∧
      sumTotals a.2 - a.1 = sumTotals acc.2 - acc.1 ∧
      ∃ b, g acc₂ = some b ∧ b.1 - acc₂.1 = a.1 - acc.1 ∧ b.2 = acc₂.2

theorem otracks_twoKey (s : List Char) (cnt : ℚ) (curr o1 : KeyPress) (hcnt : 0 ≤ cnt) :
    OTracks (twoKeyRules s cnt curr o1 true) (twoKeyRules s cnt curr o1 false) := by
  intro acc acc₂ hlen
  have hchain : Tracks
      (fun a1 =>
        (fun a4 => if curr.pos = o1.pos then
            applyRule (true && decide (0 < calculateSameKeyPenalty curr o1 * cnt)) 11
              (s.drop (s.length - 2)) (calculateSameKeyPenalty curr o1 * cnt) a4
          else a4)
        ((fun a3 => if isRollIn curr.finger o1.finger then
            applyRule true 7 (s.drop (s.length - 2)) (-0.125 * cnt) a3
          else a3)
        ((fun a2 => if isRollOut curr.finger o1.finger then
            applyRule true 6 (s.drop (s.length - 2)) (0.125 * cnt) a2
          else a2)
        ((fun a1' => if curr.finger ≠ o1.finger then
            applyRule (true && decide (0 < calculateStretchPenalty curr o1 * cnt)) 3
              (s.drop (s.length - 2)) (calculateStretchPenalty curr o1 * cnt) a1'
          else a1') a1))))
      (fun a1 =>
        (fun a4 => if curr.pos = o1.pos then
            applyRule (false && decide (0 < calculateSameKeyPenalty curr o1 * cnt)) 11
              (s.drop (s.length - 2)) (calculateSameKeyPenalty curr o1 * cnt) a4
          else a4)
        ((fun a3 => if isRollIn curr.finger o1.finger then
            applyRule false 7 (s.drop (s.length - 2)) (-0.125 * cnt) a3
          else a3)
        ((fun a2 => if isRollOut curr.finger o1.finger then
            applyRule false 6 (s.drop (s.length - 2)) (0.125 * cnt) a2
          else a2)
        ((fun a1' => if curr.finger ≠ o1.finger then
            applyRule (false && decide (0 < calculateStretchPenalty curr o1 * cnt)) 3
              (s.drop (s.length - 2)) (calculateStretchPenalty curr o1 * cnt) a1'
          else a1') a1)))) :=
    tracks_comp
      (tracks_comp
        (tracks_comp
          (tracks_ite _ (tracks_applyRule_guarded 3 _ _ (by omega)
            (mul_nonneg (calculateStretchPenalty_nonneg curr o1) hcnt)) tracks_id)
          (tracks_ite _ (tracks_applyRule 6 _ _ (by omega)) tracks_id))
        (tracks_ite _ (tracks_applyRule 7 _ _ (by omega)) tracks_id))
      (tracks_ite _ (tracks_applyRule_guarded 11 _ _ (by omega)
        (mul_nonneg (calculateSameKeyPenalty_nonneg curr o1) hcnt)) tracks_id)
  by_cases hhand : curr.hand = o1.hand
  · by_cases hsf : curr.finger = o1.finger ∧ curr.pos ≠ o1.pos
    · rcases hp : calculateSameFingerPenalty curr o1 with _ | v
      · constructor
        · intro _
          simp [twoKeyRules, hhand, hsf, hp]
        · intro a ha
          rw [twoKeyRules, if_pos hhand] at ha
          simp only [if_pos hsf, hp, Option.map_none] at ha
          exact absurd ha (by simp)
      · have hv : 0 ≤ v := calculateSameFingerPenalty_nonneg curr o1 v hp
        have hstep := tracks_comp
          (tracks_applyRule_guarded 2 (s.drop (s.length - 2)) (v * cnt) (by omega)
            (mul_nonneg hv hcnt)) hchain
        obtain ⟨l, ssum, tt, rr⟩ := hstep acc acc₂ hlen
        constructor
        · intro hfn
          rw [twoKeyRules, if_pos hhand] at hfn
          simp only [if_pos hsf, hp, Option.map_some, Option.map_some'] at hfn
          exact absurd hfn (by simp)
        · intro a ha
          rw [twoKeyRules, if_pos hhand] at ha
          simp only [if_pos hsf, hp, Option.map_some, Option.map_some', Option.some_inj] at ha
          rcases ha with rfl
          refine ⟨l, ssum, _, ?_, tt, rr⟩
          rw [twoKeyRules, if_pos hhand]
          simp only [if_pos hsf, hp, Option.map_some, Option.map_some']
    · obtain ⟨l, ssum, tt, rr⟩ := hchain acc acc₂ hlen
      constructor
      · intro hfn
        rw [twoKeyRules, if_pos hhand] at hfn
        simp only [if_neg hsf, Option.map_some, Option.map_some'] at hfn
        exact absurd hfn (by simp)
      · intro a ha
        rw [twoKeyRules, if_pos hhand] at ha
        simp only [if_neg hsf, Option.map_some, Option.map_some', Option.some_inj] at ha
        rcases ha with rfl
        refine ⟨l, ssum, _, ?_, tt, rr⟩
        rw [twoKeyRules, if_pos hhand]
        simp only [if_neg hsf, Option.map_some, Option.map_some']
  · constructor
    · intro hfn
      rw [twoKeyRules, if_neg hhand] at hfn
      exact absurd hfn (by simp)
    · intro a ha
      rw [twoKeyRules, if_neg hhand] at ha
      rw [Option.some_inj] at ha
      subst ha
      refine ⟨hlen, by ring, acc₂, ?_, by ring, rfl⟩
      rw [twoKeyRules, if_neg hhand]

/-- The accounting facts for one `penalize` call: a detailed run changes the
bucket sum by exactly its returned total, and a non-detailed run returns the
same total while leaving its result vector untouched; panics agree. -/
theorem penalize_spec (string : List Char) (count : Nat) (curr : KeyPress)
    (old1 old2 old3 : Option KeyPress) (res res₂ : List KeyPenaltyResult)
    (hlen : res.length = 12) :
    (penalize string count curr old1 old2 old3 res true = none →
      penalize string count curr old1 old2 old3 res₂ false = none) ∧
    ∀ a, penalize string count curr old1 old2 old3 res true = some a →
      a.2.length = 12 ∧ sumTotals a.2 = sumTotals res + a.1 ∧
      penalize string count curr old1 old2 old3 res₂ false = some (a.1, res₂) := by
  have hcnt : (0 : ℚ) ≤ (count : ℚ) := Nat.cast_nonneg count
  obtain ⟨l0, s0, t0, r0⟩ :=
    tracks_applyRule 0 (string.drop (string.length - 1))
      (BASE_PENALTY.getD curr.pos 0 * (count : ℚ)) (by omega) (0, res) (0, res₂) hlen
  set acc0t := applyRule true 0 (string.drop (string.length - 1))
      (BASE_PENALTY.getD curr.pos 0 * (count : ℚ)) (0, res) with hacc0t
  set acc0f := applyRule false 0 (string.drop (string.length - 1))
      (BASE_PENALTY.getD curr.pos 0 * (count : ℚ)) (0, res₂) with hacc0f
  dsimp only at s0 t0 r0
  cases old1 with
  | none =>
    constructor
    · intro hfn
      exact absurd hfn (by simp [penalize])
    · intro a ha
      rw [penalize] at ha
      rw [Option.some_inj] at ha
      rcases ha with rfl
      refine ⟨l0, by linarith, ?_⟩
      rw [penalize, Option.some_inj]
      rw [Prod.ext_iff]
      exact ⟨by linarith, r0⟩
  | some o1 =>
    obtain ⟨hnone, hsome⟩ := otracks_twoKey string (count : ℚ) curr o1 hcnt acc0t acc0f l0
    rcases htw : twoKeyRules string (count : ℚ) curr o1 true acc0t with _ | accA
    · constructor
      · intro _
        rw [penalize]
        rw [hnone htw]
        rfl
      · intro a ha
        rw [penalize] at ha
        rw [htw] at ha
        exact absurd ha (by simp)
    · obtain ⟨lA, sA, b, hb, tbA, rbA⟩ := hsome accA htw
      cases old2 with
      | none =>
        constructor
        · intro hfn
          rw [penalize, htw] at hfn
          exact absurd hfn (by simp)
        · intro a ha
          rw [penalize, htw] at ha
          simp only [Option.map_some, Option.map_some', Option.some_inj] at ha
          rcases ha with rfl
          refine ⟨lA, by linarith, ?_⟩
          rw [penalize, hb]
          simp only [Option.map_some, Option.map_some', Option.some_inj]
          rw [Prod.ext_iff]
          constructor
          · linarith
          · exact rbA.trans r0
      | some o2 =>
        obtain ⟨lB, sB, tB, rB⟩ :=
          tracks_threeKey string (count : ℚ) curr o1 o2 accA b lA
        obtain ⟨lC, sC, tC, rC⟩ :=
          tracks_sandwich string (count : ℚ) curr o2
            (threeKeyRules string (count : ℚ) curr o1 o2 true accA)
            (threeKeyRules string (count : ℚ) curr o1 o2 false b) lB
        cases old3 with
        | none =>
          constructor
          · intro hfn
            rw [penalize, htw] at hfn
            exact absurd hfn (by simp)
          · intro a ha
            rw [penalize, htw] at ha
            simp only [Option.map_some, Option.map_some', Option.some_inj] at ha
            rcases ha with rfl
            refine ⟨lC, by linarith, ?_⟩
            rw [penalize, hb]
            simp only [Option.map_some, Option.map_some', Option.some_inj]
            rw [Prod.ext_iff]
            constructor
            · simp only []
              linarith
            · exact rC.trans (rB.trans (rbA.trans r0))
        | some o3 =>
          obtain ⟨lD, sD, tD, rD⟩ :=
            tracks_fourKey string (count : ℚ) curr o1 o2 o3
              (sandwichRule string (count : ℚ) curr o2 true
                (threeKeyRules string (count : ℚ) curr o1 o2 true accA))
              (sandwichRule string (count : ℚ) curr o2 false
                (threeKeyRules string (count : ℚ) curr o1 o2 false b)) lC
          constructor
          · intro hfn
            rw [penalize, htw] at hfn
            exact absurd hfn (by simp)
          · intro a ha
            rw [penalize, htw] at ha
            simp only [Option.map_some, Option.map_some', Option.some_inj] at ha
            rcases ha with rfl
            refine ⟨lD, by linarith, ?_⟩
            rw [penalize, hb]
            simp only [Option.map_some, Option.map_some', Option.some_inj]
            rw [Prod.ext_iff]
            constructor
            · simp only []
              linarith
            · exact rD.trans (rC.trans (rB.trans (rbA.trans r0)))

theorem penaltyForQuartad_spec (string : List Char) (count : Nat) (pm : PosMap)
    (res res₂ : List KeyPenaltyResult) (hlen : res.length = 12) :
    (penaltyForQuartad string count pm res true = none →
      penaltyForQuartad string count pm res₂ false = none) ∧
    ∀ a, penaltyForQuartad string count pm res true = some a →
      a.2.length = 12 ∧ sumTotals a.2 = sumTotals res + a.1 ∧
      penaltyForQuartad string count pm res₂ false = some (a.1, res₂) := by
  unfold penaltyForQuartad
  cases hh : string.reverse.head? with
  | none =>
    constructor
    · intro _; rfl
    · intro a ha; exact absurd ha (by simp)
  | some c =>
    cases hc : getKeyPosition pm c with
    | none =>
      constructor
      · intro hfn
        simp only [hc] at hfn
        exact Option.noConfusion hfn
      · intro a ha
        simp only [hc, Option.some_inj] at ha
        rcases ha with rfl
        refine ⟨hlen, by simp, ?_⟩
        simp only [hc]
    | some curr =>
      simp only [hc]
      exact penalize_spec string count curr _ _ _ res res₂ hlen

theorem foldl_calcStep_none (pm : PosMap) (d : Bool) :
    ∀ qt : QuartadList, qt.foldl (calcStep pm d) none = none := by
  intro qt
  induction qt with
  | nil => rfl
  | cons sq rest ih => simpa [calcStep] using ih

theorem calc_fold_spec (pm : PosMap) :
    ∀ (qt : QuartadList) (t t₂ : ℚ) (res res₂ : List KeyPenaltyResult),
      res.length = 12 →
      (qt.foldl (calcStep pm true) (some (t, res)) = none →
        qt.foldl (calcStep pm false) (some (t₂, res₂)) = none) ∧
      ∀ T R, qt.foldl (calcStep pm true) (some (t, res)) = some (T, R) →
        R.length = 12 ∧ sumTotals R - T = sumTotals res - t ∧
        qt.foldl (calcStep pm false) (some (t₂, res₂)) = some (t₂ + (T - t), res₂) := by
  intro qt
  induction qt with
  | nil =>
    intro t t₂ res res₂ hlen
    constructor
    · intro h; exact absurd h (by simp)
    · intro T R h
      simp only [List.foldl_nil, Option.some_inj, Prod.mk.injEq] at h
      obtain ⟨rfl, rfl⟩ := h
      refine ⟨hlen, by ring, ?_⟩
      simp only [List.foldl_nil, Option.some_inj, Prod.mk.injEq]
      exact ⟨by ring, trivial⟩
  | cons sq rest ih =>
    intro t t₂ res res₂ hlen
    obtain ⟨hqn, hqs⟩ := penaltyForQuartad_spec sq.1 sq.2 pm res res₂ hlen
    simp only [List.foldl_cons]
    rcases hq : penaltyForQuartad sq.1 sq.2 pm res true with _ | dr
    · have hstept : calcStep pm true (some (t, res)) sq = none := by
        simp [calcStep, hq]
      have hstepf : calcStep pm false (some (t₂, res₂)) sq = none := by
        simp [calcStep, hqn hq]
      rw [hstept, hstepf, foldl_calcStep_none, foldl_calcStep_none]
      exact ⟨fun _ => rfl, fun T R h => absurd h (by simp)⟩
    · obtain ⟨ldr, sdr, hfq⟩ := hqs dr hq
      have hstept : calcStep pm true (some (t, res)) sq = some (t + dr.1, dr.2) := by
        simp [calcStep, hq]
      have hstepf : calcStep pm false (some (t₂, res₂)) sq = some (t₂ + dr.1, res₂) := by
        simp [calcStep, hfq]
      rw [hstept, hstepf]
      obtain ⟨ihn, ihs⟩ := ih (t + dr.1) (t₂ + dr.1) dr.2 res₂ ldr
      constructor
      · exact ihn
      · intro T R h
        obtain ⟨lR, sR, hfold⟩ := ihs T R h
        refine ⟨lR, by linarith, ?_⟩
        rw [hfold]
        congr 1
        rw [Prod.ext_iff]
        exact ⟨by ring, rfl⟩

/-- C1: `calculate_penalty` returns the same total in detailed and
non-detailed mode (panics agreeing), and in detailed mode the total equals
the sum of the per-rule totals of the result vector. -/
theorem calculatePenalty_total_consistency (qt : QuartadList) (len : Nat) (L : Layout) :
    (calculatePenalty qt len L initPenalties true).map (fun r => r.1) =
      (calculatePenalty qt len L initPenalties false).map (fun r => r.1) ∧
    ((calculatePenalty qt len L initPenalties true).map
        (fun r => decide (r.1 = sumTotals r.2.2))).getD true = true := by
  have hres0 : (initPenalties.map
      (fun p => (⟨p.name, 0, []⟩ : KeyPenaltyResult))).length = 12 := by
    simp [initPenalties]
  have hsum0 : sumTotals (initPenalties.map
      (fun p => (⟨p.name, 0, []⟩ : KeyPenaltyResult))) = 0 := by
    simp [sumTotals, initPenalties]
  obtain ⟨hn, hs⟩ := calc_fold_spec (getPositionMap L) qt 0 0
    (initPenalties.map (fun p => ⟨p.name, 0, []⟩)) [] hres0
  unfold calculatePenalty
  simp only [if_pos, if_neg, Bool.true_eq_false, Bool.false_eq_true, ite_true, ite_false]
  rcases hfold : qt.foldl (calcStep (getPositionMap L) true)
      (some (0, initPenalties.map (fun p => ⟨p.name, 0, []⟩))) with _ | tr
  · rw [hfold, hn hfold]
    simp
  · obtain ⟨T, R⟩ := tr
    obtain ⟨lR, sR, hfoldf⟩ := hs T R hfold
    rw [hfold, hfoldf]
    have hT : T = sumTotals R := by
      rw [hsum0] at sR
      linarith
    constructor
    · simp only [Option.map_some, Option.map_some']
      rw [Option.some_inj]
      ring
    · simp only [Option.map_some, Option.map_some', Option.getD_some]
      simp [hT]

/-! ## Theory: the depth-1 permutation iterator (claim C3) -/

theorem permNext_eq_idx (st : PermState) :
    permNext st = (permNextIdx st.swap_idx st.started).map
      fun sw => { st with swap_idx := sw, started := true } := rfl

theorem permStatesAux_eq_idx :
    ∀ (fuel : Nat) (L : Layout) (sw : List Nat) (b : Bool),
      permStatesAux fuel ⟨L, sw, b⟩ =
        (idxStatesAux fuel sw b).map fun s => ⟨L, s, true⟩ := by
  intro fuel
  induction fuel with
  | zero => intro L sw b; rfl
  | succ f ih =>
    intro L sw b
    rw [permStatesAux, idxStatesAux, permNext_eq_idx]
    cases permNextIdx sw b with
    | none => rfl
    | some sw' => simp [ih]

theorem idxStatesAux_succ_some (f : Nat) (sw : List Nat) (b : Bool) (sw1 : List Nat)
    (h : permNextIdx sw b = some sw1) :
    idxStatesAux (f + 1) sw b = sw1 :: idxStatesAux f sw1 true := by
  rw [idxStatesAux, h]

theorem idxStatesAux_succ_none (f : Nat) (sw : List Nat) (b : Bool)
    (h : permNextIdx sw b = none) :
    idxStatesAux (f + 1) sw b = [] := by
  rw [idxStatesAux, h]

theorem idxAfter_succ_some (m : Nat) (sw : List Nat) (b : Bool) (sw1 : List Nat)
    (h : permNextIdx sw b = some sw1) :
    idxAfter (m + 1) sw b = idxAfter m sw1 true := by
  rw [idxAfter, h]

theorem idxStatesAux_append :
    ∀ (m n : Nat) (sw : List Nat) (b : Bool) (sw' : List Nat) (b' : Bool),
      idxAfter m sw b = some (sw', b') →
      idxStatesAux (m + n) sw b = idxStatesAux m sw b ++ idxStatesAux n sw' b' := by
  intro m
  induction m with
  | zero =>
    intro n sw b sw' b' h
    simp only [idxAfter, Option.some_inj, Prod.mk.injEq] at h
    obtain ⟨rfl, rfl⟩ := h
    simp [idxStatesAux]
  | succ m ih =>
    intro n sw b sw' b' h
    rcases hn : permNextIdx sw b with _ | sw1
    · rw [idxAfter, hn] at h
      exact absurd h (by simp)
    · rw [idxAfter_succ_some m sw b sw1 hn] at h
      have harith : m + 1 + n = (m + n) + 1 := by omega
      rw [harith, idxStatesAux_succ_some (m + n) sw b sw1 hn,
        idxStatesAux_succ_some m sw b sw1 hn, ih n sw1 true sw' b' h]
      simp

theorem idxStatesAux_stable :
    ∀ (n m : Nat) (sw : List Nat) (b : Bool),
      (idxStatesAux n sw b).length < n →
      idxStatesAux (n + m) sw b = idxStatesAux n sw b := by
  intro n
  induction n with
  | zero => intro m sw b h; simp at h
  | succ n ih =>
    intro m sw b h
    have harith : n + 1 + m = (n + m) + 1 := by omega
    rcases hn : permNextIdx sw b with _ | sw1
    · rw [harith, idxStatesAux_succ_none _ _ _ hn, idxStatesAux_succ_none _ _ _ hn]
    · rw [idxStatesAux_succ_some n sw b sw1 hn, List.length_cons] at h
      rw [harith, idxStatesAux_succ_some (n + m) sw b sw1 hn,
        idxStatesAux_succ_some n sw b sw1 hn, ih m sw1 true (by omega)]

/-- The swap-index vectors of the depth-1 enumeration, in order: all pairs
`[a, b]` with `b < a < 49`, grouped by increasing `b`. -/
def pairListD1 : List (List Nat) :=
  (List.range 49).flatMap fun b => (List.range (48 - b)).map fun k => [b + 1 + k, b]

theorem idxAfter_400 :
    idxAfter 400 (List.replicate 2 0) false = some ([13, 9], true) := by decide

theorem idxAfter_800 : idxAfter 400 [13, 9] true = some ([23, 21], true) := by decide

theorem idxSeg1 : idxStatesAux 400 (List.replicate 2 0) false = pairListD1.take 400 := by
  decide

theorem idxSeg2 : idxStatesAux 400 [13, 9] true = (pairListD1.drop 400).take 400 := by
  decide

theorem idxSeg3 : idxStatesAux 400 [23, 21] true = pairListD1.drop 800 := by decide

theorem idxSeg3_len : (pairListD1.drop 800).length = 376 := by decide

/-- The complete depth-1 swap-index trace is exactly `pairListD1`. -/
theorem idxStatesAux_d1 :
    idxStatesAux (permFuel 1) (List.replicate 2 0) false = pairListD1 := by
  have h1 : permFuel 1 = 400 + 2001 := by decide
  rw [h1, idxStatesAux_append 400 2001 _ _ _ _ idxAfter_400]
  have h2 : (2001 : Nat) = 400 + 1601 := by norm_num
  rw [h2, idxStatesAux_append 400 1601 _ _ _ _ idxAfter_800]
  have h3 : (1601 : Nat) = 400 + 1201 := by norm_num
  have hstable : idxStatesAux 1601 [23, 21] true = idxStatesAux 400 [23, 21] true := by
    rw [h3]
    exact idxStatesAux_stable 400 1201 [23, 21] true (by rw [idxSeg3, idxSeg3_len]; omega)
  rw [hstable, idxSeg1, idxSeg2, idxSeg3]
  have : (pairListD1.drop 400).take 400 ++ pairListD1.drop 800 = pairListD1.drop 400 := by
    have hd : pairListD1.drop 800 = (pairListD1.drop 400).drop 400 := by
      rw [List.drop_drop]
    rw [hd, List.take_append_drop]
  rw [this, List.take_append_drop]

/-- The depth-1 candidate list, characterized: one layout per swap-index
pair. -/
theorem permCandidates_d1 (L : Layout) :
    permCandidates L 1 =
      pairListD1.map fun p => applySwapIdxPairs L p := by
  unfold permCandidates permInit
  have h2 : 2 * 1 = 2 := by norm_num
  rw [h2, permStatesAux_eq_idx (permFuel 1) L (List.replicate 2 0) false, idxStatesAux_d1]
  rw [List.map_map]
  rfl

theorem pairListD1_mem :
    ∀ p ∈ pairListD1, ∃ a b : Nat, p = [a, b] ∧ b < a ∧ a < 49 := by
  intro p hp
  rw [pairListD1, List.mem_flatMap] at hp
  obtain ⟨b, hb, hmem⟩ := hp
  rw [List.mem_map] at hmem
  obtain ⟨k, hk, rfl⟩ := hmem
  rw [List.mem_range] at hb hk
  exact ⟨b + 1 + k, b, rfl, by omega, by omega⟩

theorem pairListD1_nodup : pairListD1.Nodup := by
  rw [pairListD1, List.nodup_flatMap]
  constructor
  · intro b _
    refine List.Nodup.map ?_ (List.nodup_range _)
    intro k1 k2 h
    simp only [List.cons.injEq] at h
    omega
  · refine List.pairwise_iff_forall_sublist.mpr ?_
    intro b b' hsub
    have hne : b ≠ b' := by
      intro h
      subst h
      exact absurd (hsub.nodup (List.nodup_range _)) (by simp)
    intro x hx hx'
    rw [List.mem_map] at hx hx'
    obtain ⟨k, _, rfl⟩ := hx
    obtain ⟨k', _, h⟩ := hx'
    simp only [List.cons.injEq] at h
    omega

theorem pairListD1_length : pairListD1.length = Nat.choose 49 2 := by
  rw [pairListD1, List.length_flatMap]
  decide

/-! ## C3: full characterization of the depth-1 candidate list -/

theorem getD_set_self (l : List Char) (i : Nat) (a d : Char) (h : i < l.length) :
    (l.set i a).getD i d = a := by
  simp [List.getD, List.getElem?_set, h]

theorem getD_set_ne (l : List Char) (i k : Nat) (a d : Char) (h : k ≠ i) :
    (l.set i a).getD k d = l.getD k d := by
  simp [List.getD, List.getElem?_set, Ne.symm h]

/-- Pointwise description of `Layer::swap`: position `j` receives the old
entry of `i`, position `i` the old entry of `j`, all others are unchanged. -/
theorem getD_swapLayer (l : Layer) (i j k : Nat) (hi : i < l.length) (hj : j < l.length) :
    (swapLayer l i j).getD k '\x00' =
      if k = j then l.getD i '\x00'
      else if k = i then l.getD j '\x00'
      else l.getD k '\x00' := by
  show (((l.set i (l.getD j '\x00')).set j (l.getD i '\x00')).getD k '\x00') = _
  by_cases hkj : k = j
  · subst hkj
    rw [if_pos rfl, getD_set_self _ _ _ _ (by rw [List.length_set]; exact hj)]
  · rw [if_neg hkj, getD_set_ne _ _ _ _ _ hkj]
    by_cases hki : k = i
    · subst hki
      rw [if_pos rfl, getD_set_self _ _ _ _ hi]
    · rw [if_neg hki, getD_set_ne _ _ _ _ _ hki]

theorem swapIdxToPos_lt_50 : ∀ i < 49, swapIdxToPos i < 50 := by decide

theorem swapIdxToPos_mono : ∀ i < 49, ∀ j < i, swapIdxToPos j < swapIdxToPos i := by
  decide

theorem swapIdxToPos_inj :
    ∀ a < 49, ∀ b < 49, swapIdxToPos a = swapIdxToPos b → a = b := by decide

/-- The characters stored at the swappable positions of the lower layer are
pairwise distinct. -/
def swappableEntriesDistinct (L : Layout) : Prop :=
  ∀ i < 49, ∀ j < 49, i = j ∨
    L.lower.getD (swapIdxToPos i) '\x00' ≠ L.lower.getD (swapIdxToPos j) '\x00'

instance (L : Layout) : Decidable (swappableEntriesDistinct L) := by
  unfold swappableEntriesDistinct; infer_instance

/-- A swap of two positions holding distinct characters changes the layer. -/
theorem swapLayer_ne_id (l : Layer) (p q : Nat) (hp : p < l.length) (hq : q < l.length)
    (hne : l.getD p '\x00' ≠ l.getD q '\x00') :
    swapLayer l p q ≠ l := by
  intro h
  have hgd := congrArg (fun t => List.getD t q '\x00') h
  simp only at hgd
  rw [getD_swapLayer l p q q hp hq, if_pos rfl] at hgd
  exact hne hgd

/-- Two swaps of ordered pairs of positions holding pairwise distinct
characters produce different layers unless the pairs coincide. -/
theorem swapLayer_pair_ne (l : Layer) (S : Nat → Prop) (p q p' q' : Nat)
    (hp : p < l.length) (hq : q < l.length) (hp' : p' < l.length) (hq' : q' < l.length)
    (hSp : S p) (hSq : S q) (hSp' : S p') (hSq' : S q')
    (hqp : q < p) (hqp' : q' < p')
    (hD : ∀ a, a < l.length → ∀ b, b < l.length → S a → S b → a ≠ b →
      l.getD a '\x00' ≠ l.getD b '\x00')
    (hne : ¬ (p = p' ∧ q = q')) :
    swapLayer l p q ≠ swapLayer l p' q' := by
  intro h
  by_cases hqq' : q = q'
  · have hpp' : p ≠ p' := fun hpp => hne ⟨hpp, hqq'⟩
    have hL : (swapLayer l p q).getD p '\x00' = l.getD q '\x00' := by
      rw [getD_swapLayer l p q p hp hq, if_neg (by omega), if_pos rfl]
    have hR : (swapLayer l p' q').getD p '\x00' = l.getD p '\x00' := by
      rw [getD_swapLayer l p' q' p hp' hq', if_neg (by omega), if_neg hpp']
    have hk : l.getD q '\x00' = l.getD p '\x00' := by rw [← hL, ← hR, h]
    exact hD q hq p hp hSq hSp (by omega) hk
  · by_cases hqp2 : q = p'
    · have hL : (swapLayer l p q).getD q' '\x00' = l.getD q' '\x00' := by
        rw [getD_swapLayer l p q q' hp hq, if_neg (by omega), if_neg (by omega)]
      have hR : (swapLayer l p' q').getD q' '\x00' = l.getD p' '\x00' := by
        rw [getD_swapLayer l p' q' q' hp' hq', if_pos rfl]
      have hk : l.getD q' '\x00' = l.getD p' '\x00' := by rw [← hL, ← hR, h]
      exact hD q' hq' p' hp' hSq' hSp' (by omega) hk
    · have hL : (swapLayer l p q).getD q '\x00' = l.getD p '\x00' := by
        rw [getD_swapLayer l p q q hp hq, if_pos rfl]
      have hR : (swapLayer l p' q').getD q '\x00' = l.getD q '\x00' := by
        rw [getD_swapLayer l p' q' q hp' hq', if_neg hqq', if_neg hqp2]
      have hk : l.getD p '\x00' = l.getD q '\x00' := by rw [← hL, ← hR, h]
      exact hD p hp q hq hSp hSq (by omega) hk

theorem applySwapIdxPairs_pair (L : Layout) (a b : Nat) :
    applySwapIdxPairs L [a, b] = swapLayoutPositions L (swapIdxToPos a) (swapIdxToPos b) :=
  rfl

/-- C3. With swap depth 1 the permutation iterator always yields exactly
`C(49, 2)` layouts, each obtained from the base by one transposition of two
distinct swappable positions applied identically to both layers; and when the
characters stored at the swappable positions of the lower layer are pairwise
distinct, the yielded layouts are pairwise distinct and none equals the base
layout. -/
theorem permutations_depth1_spec (L : Layout)
    (hl : L.lower.length = 50)
    (hd : swappableEntriesDistinct L) :
    (permCandidates L 1).length = Nat.choose 49 2 ∧
    (∀ c ∈ permCandidates L 1, ∃ p q : Nat, p ≠ q ∧ isSwappablePos p ∧
      isSwappablePos q ∧ c = swapLayoutPositions L p q) ∧
    (∀ c ∈ permCandidates L 1, c ≠ L) ∧
    (permCandidates L 1).Nodup := by
  have hD : ∀ a, a < L.lower.length → ∀ b, b < L.lower.length →
      isSwappablePos a → isSwappablePos b → a ≠ b →
      L.lower.getD a '\x00' ≠ L.lower.getD b '\x00' := by
    intro a ha b hb hsa hsb hab
    obtain ⟨i, hi, rfl⟩ := hsa
    obtain ⟨j, hj, rfl⟩ := hsb
    rcases hd i hi j hj with hij | hne
    · exact absurd (congrArg swapIdxToPos hij) hab
    · exact hne
  refine ⟨?_, ?_, ?_, ?_⟩
  · rw [permCandidates_d1, List.length_map, pairListD1_length]
  · intro c hc
    rw [permCandidates_d1, List.mem_map] at hc
    obtain ⟨pr, hpr, rfl⟩ := hc
    obtain ⟨a, b, rfl, hba, ha⟩ := pairListD1_mem _ hpr
    have hb : b < 49 := by omega
    have hmono := swapIdxToPos_mono a ha b hba
    exact ⟨swapIdxToPos a, swapIdxToPos b, by omega, ⟨a, ha, rfl⟩, ⟨b, hb, rfl⟩,
      applySwapIdxPairs_pair L a b⟩
  · intro c hc
    rw [permCandidates_d1, List.mem_map] at hc
    obtain ⟨pr, hpr, rfl⟩ := hc
    obtain ⟨a, b, rfl, hba, ha⟩ := pairListD1_mem _ hpr
    have hb : b < 49 := by omega
    have hmono := swapIdxToPos_mono a ha b hba
    have hpa : swapIdxToPos a < L.lower.length := by
      rw [hl]; exact swapIdxToPos_lt_50 a ha
    have hpb : swapIdxToPos b < L.lower.length := by
      rw [hl]; exact swapIdxToPos_lt_50 b hb
    rw [applySwapIdxPairs_pair]
    intro hEq
    have hlow : swapLayer L.lower (swapIdxToPos a) (swapIdxToPos b) = L.lower :=
      congrArg Layout.lower hEq
    exact swapLayer_ne_id L.lower (swapIdxToPos a) (swapIdxToPos b) hpa hpb
      (hD _ hpa _ hpb ⟨a, ha, rfl⟩ ⟨b, hb, rfl⟩ (by omega)) hlow
  · rw [permCandidates_d1]
    refine List.Nodup.map_on ?_ pairListD1_nodup
    intro x hx y hy hfxy
    obtain ⟨a, b, rfl, hba, ha⟩ := pairListD1_mem _ hx
    obtain ⟨a', b', rfl, hba', ha'⟩ := pairListD1_mem _ hy
    have hb : b < 49 := by omega
    have hb' : b' < 49 := by omega
    rw [applySwapIdxPairs_pair, applySwapIdxPairs_pair] at hfxy
    have hlow : swapLayer L.lower (swapIdxToPos a) (swapIdxToPos b) =
        swapLayer L.lower (swapIdxToPos a') (swapIdxToPos b') :=
      congrArg Layout.lower hfxy
    have hppqq : swapIdxToPos a = swapIdxToPos a' ∧ swapIdxToPos b = swapIdxToPos b' := by
      by_contra hcon
      exact swapLayer_pair_ne L.lower isSwappablePos _ _ _ _
        (by rw [hl]; exact swapIdxToPos_lt_50 a ha)
        (by rw [hl]; exact swapIdxToPos_lt_50 b hb)
        (by rw [hl]; exact swapIdxToPos_lt_50 a' ha')
        (by rw [hl]; exact swapIdxToPos_lt_50 b' hb')
        ⟨a, ha, rfl⟩ ⟨b, hb, rfl⟩ ⟨a', ha', rfl⟩ ⟨b', hb', rfl⟩
        (swapIdxToPos_mono a ha b hba) (swapIdxToPos_mono a' ha' b' hba')
        hD hcon hlow
    rw [swapIdxToPos_inj a ha a' ha' hppqq.1, swapIdxToPos_inj b hb b' hb' hppqq.2]

/-- A layout whose fifty slots hold pairwise distinct characters. -/
def DISTINCT_LAYOUT : Layout :=
  ⟨['q', 'w', 'e', 'r', 't', 'y', 'u', 'i', 'o', 'p',
    'a', 's', 'd', 'f', 'g', 'h', 'j', 'k', 'l', 'z',
    'x', 'c', 'v', 'b', 'n', 'm', 'Q', 'W', 'E', 'R',
    'T', 'Y', 'U', 'I', 'O', 'P', 'A', 'S', 'D', 'F',
    'G', 'H', 'J', 'K', 'L', 'Z', 'X', 'C', 'V', 'B'],
   ['q', 'w', 'e', 'r', 't', 'y', 'u', 'i', 'o', 'p',
    'a', 's', 'd', 'f', 'g', 'h', 'j', 'k', 'l', 'z',
    'x', 'c', 'v', 'b', 'n', 'm', 'Q', 'W', 'E', 'R',
    'T', 'Y', 'U', 'I', 'O', 'P', 'A', 'S', 'D', 'F',
    'G', 'H', 'J', 'K', 'L', 'Z', 'X', 'C', 'V', 'B']⟩

/-- Witness for C3 at a layout with pairwise distinct entries. -/
theorem permutations_depth1_spec_witness :
    DISTINCT_LAYOUT.lower.length = 50 ∧
    swappableEntriesDistinct DISTINCT_LAYOUT ∧
    ((permCandidates DISTINCT_LAYOUT 1).length = Nat.choose 49 2 ∧
      (∀ c ∈ permCandidates DISTINCT_LAYOUT 1, ∃ p q : Nat, p ≠ q ∧
        isSwappablePos p ∧ isSwappablePos q ∧
        c = swapLayoutPositions DISTINCT_LAYOUT p q) ∧
      (∀ c ∈ permCandidates DISTINCT_LAYOUT 1, c ≠ DISTINCT_LAYOUT) ∧
      (permCandidates DISTINCT_LAYOUT 1).Nodup) :=
  ⟨by decide, by decide, permutations_depth1_spec DISTINCT_LAYOUT (by decide) (by decide)⟩

/-- Counterexample to the unconditional reading of C3: on `INIT_LAYOUT`, whose
swappable set holds many copies of the nul character, the depth-1 enumeration
yields the base layout itself, and yields it twice. -/
theorem permutations_yield_duplicates :
    (permCandidates INIT_LAYOUT 1)[10]? = some INIT_LAYOUT ∧
    (permCandidates INIT_LAYOUT 1)[22]? = some INIT_LAYOUT := by
  rw [permCandidates_d1]
  decide

/-! ## Behaviour of refine around a local optimum -/

theorem listInsertOrdered_ne_nil (l : List BestLayoutsEntry) (e : BestLayoutsEntry) :
    listInsertOrdered l e ≠ [] := by
  cases l with
  | nil => simp [listInsertOrdered]
  | cons c rest =>
    unfold listInsertOrdered
    split <;> simp

theorem truncateToCap_ne_nil (l : List BestLayoutsEntry) (cap : Nat)
    (hcap : 1 ≤ cap) (hl : l ≠ []) : truncateToCap l cap ≠ [] := by
  rw [truncateToCap_eq_take]
  cases l with
  | nil => exact absurd rfl hl
  | cons c rest =>
    cases cap with
    | zero => omega
    | succ n => simp [List.take_succ_cons]

theorem roundStep_visited (qt : QuartadList) (len cap : Nat)
    (best : List BestLayoutsEntry) (vis : List Layout) (c : Layout) (h : c ∈ vis) :
    roundStep qt len cap (some (best, vis)) c = some (best, vis) := by
  show (if c ∈ vis then some (best, vis)
    else (calculatePenalty qt len c initPenalties false).map fun p =>
      (truncateToCap (listInsertOrdered best ⟨c, p.2.1⟩) cap, c :: vis)) = some (best, vis)
  rw [if_pos h]

theorem roundStep_new (qt : QuartadList) (len cap : Nat)
    (best : List BestLayoutsEntry) (vis : List Layout) (c : Layout)
    (h : c ∉ vis) (rc : ℚ × ℚ × List KeyPenaltyResult)
    (hrc : calculatePenalty qt len c initPenalties false = some rc) :
    roundStep qt len cap (some (best, vis)) c =
      some (truncateToCap (listInsertOrdered best ⟨c, rc.2.1⟩) cap, c :: vis) := by
  show (if c ∈ vis then some (best, vis)
    else (calculatePenalty qt len c initPenalties false).map fun p =>
      (truncateToCap (listInsertOrdered best ⟨c, p.2.1⟩) cap, c :: vis)) = _
  rw [if_neg h, hrc, Option.map_some']

/-- Scoring an empty quartad table yields zero penalty for every layout. -/
theorem calculatePenalty_nil (len : Nat) (L : Layout) (detailed : Bool) :
    calculatePenalty [] len L initPenalties detailed =
      some (0, 0,
        if detailed then initPenalties.map (fun p => ⟨p.name, 0, []⟩) else []) := by
  unfold calculatePenalty
  simp

/-- Invariant of one round of refine: the fold succeeds when every candidate
scores, every retained entry's penalty is at least the common lower bound,
and the best list is nonempty once any unvisited candidate was processed. -/
theorem foldl_round_spec (qt : QuartadList) (len cap : Nat) (hcap : 1 ≤ cap) (B : ℚ) :
    ∀ (cs : List Layout) (bv : List BestLayoutsEntry × List Layout),
      (∀ c ∈ cs, ∃ rc : ℚ × ℚ × List KeyPenaltyResult,
        calculatePenalty qt len c initPenalties false = some rc ∧ B ≤ rc.2.1) →
      (∀ e ∈ bv.1, B ≤ e.penalty) →
      ∃ bl vis, cs.foldl (roundStep qt len cap) (some bv) = some (bl, vis) ∧
        (∀ e ∈ bl, B ≤ e.penalty) ∧
        ((bv.1 ≠ [] ∨ ∃ c ∈ cs, c ∉ bv.2) → bl ≠ []) := by
  intro cs
  induction cs with
  | nil =>
    intro bv hsc hB
    obtain ⟨b1, b2⟩ := bv
    refine ⟨b1, b2, rfl, hB, ?_⟩
    rintro (h | ⟨c, hc, _⟩)
    · exact h
    · exact absurd hc (List.not_mem_nil c)
  | cons c rest ih =>
    intro bv hsc hB
    obtain ⟨b1, b2⟩ := bv
    rw [List.foldl_cons]
    by_cases hv : c ∈ b2
    · rw [roundStep_visited qt len cap b1 b2 c hv]
      obtain ⟨bl, vis, hfold, hble, hne⟩ := ih (b1, b2)
        (fun x hx => hsc x (List.mem_cons_of_mem _ hx)) hB
      refine ⟨bl, vis, hfold, hble, ?_⟩
      rintro (h | ⟨x, hx, hxv⟩)
      · exact hne (Or.inl h)
      · rcases List.mem_cons.mp hx with rfl | hx2
        · exact absurd hv hxv
        · exact hne (Or.inr ⟨x, hx2, hxv⟩)
    · obtain ⟨rc, hrc, hrcB⟩ := hsc c (List.mem_cons_self _ _)
      rw [roundStep_new qt len cap b1 b2 c hv rc hrc]
      have hB2 : ∀ e ∈ truncateToCap (listInsertOrdered b1 ⟨c, rc.2.1⟩) cap,
          B ≤ e.penalty := by
        intro e he
        rw [truncateToCap_eq_take] at he
        rcases mem_listInsertOrdered.mp (List.take_subset _ _ he) with rfl | he2
        · exact hrcB
        · exact hB e he2
      obtain ⟨bl, vis, hfold, hble, hne⟩ :=
        ih (truncateToCap (listInsertOrdered b1 ⟨c, rc.2.1⟩) cap, c :: b2)
          (fun x hx => hsc x (List.mem_cons_of_mem _ hx)) hB2
      exact ⟨bl, vis, hfold, hble, fun h2 =>
        hne (Or.inl (truncateToCap_ne_nil _ cap hcap (listInsertOrdered_ne_nil _ _)))⟩

/-- With capacity zero the best list stays empty through the whole round. -/
theorem foldl_round_cap0 (qt : QuartadList) (len : Nat) :
    ∀ (cs : List Layout) (vis : List Layout),
      (∀ c ∈ cs, ∃ rc : ℚ × ℚ × List KeyPenaltyResult,
        calculatePenalty qt len c initPenalties false = some rc) →
      ∃ vis2, cs.foldl (roundStep qt len 0) (some ([], vis)) = some ([], vis2) := by
  intro cs
  induction cs with
  | nil => exact fun vis h2 => ⟨vis, rfl⟩
  | cons c rest ih =>
    intro vis hsc
    rw [List.foldl_cons]
    by_cases hv : c ∈ vis
    · rw [roundStep_visited qt len 0 [] vis c hv]
      exact ih vis fun x hx => hsc x (List.mem_cons_of_mem _ hx)
    · obtain ⟨rc, hrc⟩ := hsc c (List.mem_cons_self _ _)
      rw [roundStep_new qt len 0 [] vis c hv rc hrc]
      have htr : truncateToCap (listInsertOrdered [] ⟨c, rc.2.1⟩) 0 = [] := by
        rw [truncateToCap_eq_take, List.take_zero]
      rw [htr]
      exact ih (c :: vis) fun x hx => hsc x (List.mem_cons_of_mem _ hx)

theorem getD_replicate (a d : Char) :
    ∀ (n i : Nat), i < n → (List.replicate n a).getD i d = a := by
  intro n
  induction n with
  | zero => intro i h; omega
  | succ n ih =>
    intro i h
    cases i with
    | zero => rfl
    | succ i =>
      show (List.replicate n a).getD i d = a
      exact ih i (by omega)

theorem set_replicate_self (a : Char) :
    ∀ (n i : Nat), (List.replicate n a).set i a = List.replicate n a := by
  intro n
  induction n with
  | zero => intro i; rfl
  | succ n ih =>
    intro i
    cases i with
    | zero => rfl
    | succ i =>
      show a :: (List.replicate n a).set i a = List.replicate (n + 1) a
      rw [ih i, List.replicate_succ]

/-- Swapping inside a constant layer is the identity. -/
theorem swapLayer_replicate (n : Nat) (a : Char) (p q : Nat)
    (hp : p < n) (hq : q < n) :
    swapLayer (List.replicate n a) p q = List.replicate n a := by
  show ((List.replicate n a).set p ((List.replicate n a).getD q '\x00')).set q
      ((List.replicate n a).getD p '\x00') = List.replicate n a
  rw [getD_replicate a _ n q hq, getD_replicate a _ n p hp,
    set_replicate_self, set_replicate_self]

theorem allA_swap_id : ∀ i < 49, ∀ j < 49,
    swapLayoutPositions ALL_A_LAYOUT (swapIdxToPos i) (swapIdxToPos j) =
      ALL_A_LAYOUT := by
  intro i hi j hj
  have hpi := swapIdxToPos_lt_50 i hi
  have hpj := swapIdxToPos_lt_50 j hj
  show (⟨swapLayer (List.replicate 50 'a') (swapIdxToPos i) (swapIdxToPos j),
    swapLayer (List.replicate 50 'A') (swapIdxToPos i) (swapIdxToPos j)⟩ : Layout) =
    ⟨List.replicate 50 'a', List.replicate 50 'A'⟩
  rw [swapLayer_replicate 50 'a' _ _ hpi hpj, swapLayer_replicate 50 'A' _ _ hpi hpj]

/-- Every depth-1 candidate of the all-equal layout is the layout itself:
every swap exchanges two equal characters. -/
theorem allA_candidates_eq : ∀ c ∈ permCandidates ALL_A_LAYOUT 1, c = ALL_A_LAYOUT := by
  intro c hc
  rw [permCandidates_d1, List.mem_map] at hc
  obtain ⟨pr, hpr, rfl⟩ := hc
  obtain ⟨a, b, rfl, hba, ha⟩ := pairListD1_mem _ hpr
  rw [applySwapIdxPairs_pair]
  exact allA_swap_id a ha b (by omega)

/-- Supporting result: if `refine` with swap depth 1 and a positive
`top_layouts` capacity starts at a layout whose every scored depth-1
candidate is no better - and every candidate distinct from the base strictly
worse - than the base, the outer loop is still running after zero rounds and
reports the original layout as winner after exactly one round. -/
theorem refine_local_optimum (qt : QuartadList) (len : Nat) (L : Layout)
    (cap : Nat) (hcap : 1 ≤ cap) (r : ℚ × ℚ × List KeyPenaltyResult)
    (hinit : calculatePenalty qt len L initPenalties true = some r)
    (hcand : ∀ c ∈ permCandidates L 1, ∃ rc : ℚ × ℚ × List KeyPenaltyResult,
      calculatePenalty qt len c initPenalties false = some rc ∧
      r.2.1 ≤ rc.2.1 ∧ (c ≠ L → r.2.1 < rc.2.1)) :
    refineFull qt len L cap 1 0 = some (Sum.inl ⟨L, r.2.1, []⟩) ∧
    refineFull qt len L cap 1 1 = some (Sum.inr L) := by
  have hst : refineInit qt len L = some ⟨L, r.2.1, []⟩ := by
    unfold refineInit
    rw [hinit, Option.map_some']
  obtain ⟨bl, vis, hfold, hble, hne⟩ :=
    foldl_round_spec qt len cap hcap r.2.1 (permCandidates L 1) ([], [])
      (fun c hc => (hcand c hc).imp fun rc h => ⟨h.1, h.2.1⟩)
      (fun e he => absurd he (List.not_mem_nil e))
  have hcne : permCandidates L 1 ≠ [] := by
    have h1 : (permCandidates L 1).length = Nat.choose 49 2 := by
      rw [permCandidates_d1, List.length_map, pairListD1_length]
    intro h
    rw [h] at h1
    exact absurd h1 (by decide)
  obtain ⟨c0, hc0⟩ := List.exists_mem_of_ne_nil _ hcne
  have hblne : bl ≠ [] := hne (Or.inr ⟨c0, hc0, List.not_mem_nil c0⟩)
  have hroundEq : refineRound qt len cap 1 ⟨L, r.2.1, []⟩ = some (bl, vis) := by
    unfold refineRound
    exact hfold
  constructor
  · unfold refineFull
    rw [hst]
    rfl
  · unfold refineFull
    rw [hst]
    show stepRefine qt len cap 1 ⟨L, r.2.1, []⟩ = some (Sum.inr L)
    unfold stepRefine
    rw [hroundEq]
    cases bl with
    | nil => exact absurd rfl hblne
    | cons best tl =>
      have hle : r.2.1 ≤ best.penalty := hble best (List.mem_cons_self _ _)
      simp only [Option.some_bind, List.head?_cons]
      rw [if_pos hle]

/-- The detailed per-rule report of an all-zero scoring run. -/
def zeroResults : List KeyPenaltyResult :=
  initPenalties.map fun p => ⟨p.name, 0, []⟩

/-- Instance of the preceding result at the all-equal layout: every candidate
coincides with the base, the quartad table is empty, and the capacity is
one. -/
theorem refine_local_optimum_witness :
    1 ≤ 1 ∧
    calculatePenalty [] 1 ALL_A_LAYOUT initPenalties true =
      some (0, 0, zeroResults) ∧
    (∀ c ∈ permCandidates ALL_A_LAYOUT 1, ∃ rc : ℚ × ℚ × List KeyPenaltyResult,
      calculatePenalty [] 1 c initPenalties false = some rc ∧
      (0 : ℚ) ≤ rc.2.1 ∧ (c ≠ ALL_A_LAYOUT → (0 : ℚ) < rc.2.1)) ∧
    (refineFull [] 1 ALL_A_LAYOUT 1 1 0 = some (Sum.inl ⟨ALL_A_LAYOUT, 0, []⟩) ∧
     refineFull [] 1 ALL_A_LAYOUT 1 1 1 = some (Sum.inr ALL_A_LAYOUT)) :=
  ⟨Nat.le_refl 1,
   calculatePenalty_nil 1 ALL_A_LAYOUT true,
   fun c hc => ⟨(0, 0, []), calculatePenalty_nil 1 c false, le_refl 0,
     fun hne => absurd (allA_candidates_eq c hc) hne⟩,
   refine_local_optimum [] 1 ALL_A_LAYOUT 1 (Nat.le_refl 1)
     (0, 0, zeroResults)
     (calculatePenalty_nil 1 ALL_A_LAYOUT true)
     (fun c hc => ⟨(0, 0, []), calculatePenalty_nil 1 c false, le_refl 0,
       fun hne => absurd (allA_candidates_eq c hc) hne⟩)⟩

/-- Supporting result: with `top_layouts = 0` the first round of refine
panics (`pop_front().unwrap()` on an always-empty best list) whenever at
least one candidate is scored, rather than reporting any winner. -/
theorem refine_cap_zero_panics :
    refineFull [] 1 ALL_A_LAYOUT 0 1 1 = none := by
  have hst : refineInit [] 1 ALL_A_LAYOUT = some ⟨ALL_A_LAYOUT, 0, []⟩ := by
    unfold refineInit
    rw [calculatePenalty_nil, Option.map_some']
  obtain ⟨vis2, hfold⟩ := foldl_round_cap0 [] 1 (permCandidates ALL_A_LAYOUT 1) []
    (fun c hc => ⟨(0, 0, []), calculatePenalty_nil 1 c false⟩)
  have hroundEq : refineRound [] 1 0 1 ⟨ALL_A_LAYOUT, 0, []⟩ = some ([], vis2) := by
    unfold refineRound
    exact hfold
  unfold refineFull
  rw [hst]
  show stepRefine [] 1 0 1 ⟨ALL_A_LAYOUT, 0, []⟩ = none
  unfold stepRefine
  rw [hroundEq]
  rfl

/-! ## C7: termination of refine -/

/-- Characters a layout reachable from `L` by swaps can contain: the
original entries of either layer, or the nul default pulled in by an
out-of-range read. -/
def layoutAlphabet (L : Layout) : List Char := '\x00' :: (L.lower ++ L.upper)

/-- The finite region of the layout space that swapping can reach from `L`:
layer lengths are preserved and every entry comes from the alphabet. -/
def inClass (L M : Layout) : Prop :=
  M.lower.length = L.lower.length ∧ M.upper.length = L.upper.length ∧
  (∀ c ∈ M.lower, c ∈ layoutAlphabet L) ∧ (∀ c ∈ M.upper, c ∈ layoutAlphabet L)

theorem inClass_refl (L : Layout) : inClass L L :=
  ⟨rfl, rfl, fun c hc => List.mem_cons_of_mem _ (List.mem_append_left _ hc),
    fun c hc => List.mem_cons_of_mem _ (List.mem_append_right _ hc)⟩

theorem length_swapLayer (l : Layer) (p q : Nat) : (swapLayer l p q).length = l.length := by
  show ((l.set p (l.getD q '\x00')).set q (l.getD p '\x00')).length = l.length
  rw [List.length_set, List.length_set]

theorem getD_mem_or_default (l : List Char) (i : Nat) :
    l.getD i '\x00' ∈ l ∨ l.getD i '\x00' = '\x00' := by
  cases h : l[i]? with
  | none =>
    right
    simp [List.getD, h]
  | some c =>
    left
    have hc : l.getD i '\x00' = c := by simp [List.getD, h]
    rw [hc]
    exact List.getElem?_mem h

theorem mem_swapLayer (l : Layer) (p q : Nat) (c : Char) (hc : c ∈ swapLayer l p q) :
    c ∈ l ∨ c = '\x00' := by
  rcases List.mem_or_eq_of_mem_set hc with h1 | rfl
  · rcases List.mem_or_eq_of_mem_set h1 with h2 | rfl
    · exact Or.inl h2
    · exact getD_mem_or_default l q
  · exact getD_mem_or_default l p

theorem inClass_swap (L M : Layout) (h : inClass L M) (p q : Nat) :
    inClass L (swapLayoutPositions M p q) := by
  obtain ⟨h1, h2, h3, h4⟩ := h
  refine ⟨?_, ?_, ?_, ?_⟩
  · show (swapLayer M.lower p q).length = L.lower.length
    rw [length_swapLayer, h1]
  · show (swapLayer M.upper p q).length = L.upper.length
    rw [length_swapLayer, h2]
  · intro c hc
    rcases mem_swapLayer _ _ _ c hc with h5 | rfl
    · exact h3 c h5
    · exact List.mem_cons_self _ _
  · intro c hc
    rcases mem_swapLayer _ _ _ c hc with h5 | rfl
    · exact h4 c h5
    · exact List.mem_cons_self _ _

theorem inClass_applySwaps (L : Layout) :
    ∀ (n : Nat) (pairs : List Nat), pairs.length ≤ n → ∀ M, inClass L M →
      inClass L (applySwapIdxPairs M pairs) := by
  intro n
  induction n with
  | zero =>
    intro pairs h M hM
    cases pairs with
    | nil => exact hM
    | cons a rest => simp at h
  | succ n ih =>
    intro pairs h M hM
    cases pairs with
    | nil => exact hM
    | cons a rest =>
      cases rest with
      | nil => exact hM
      | cons b rest2 =>
        have hlen : rest2.length ≤ n := by
          simp only [List.length_cons] at h
          omega
        exact ih rest2 hlen _
          (inClass_swap L M hM (swapIdxToPos a) (swapIdxToPos b))

theorem permStatesAux_orig : ∀ (fuel : Nat) (st s : PermState),
    s ∈ permStatesAux fuel st → s.orig = st.orig := by
  intro fuel
  induction fuel with
  | zero => intro st s h; simp [permStatesAux] at h
  | succ fuel ih =>
    intro st s h
    rw [permStatesAux] at h
    cases hn : permNext st with
    | none => rw [hn] at h; simp at h
    | some st2 =>
      rw [hn] at h
      have horig : st2.orig = st.orig := by
        unfold permNext at hn
        cases hpn : permNextIdx st.swap_idx st.started with
        | none => rw [hpn] at hn; exact absurd hn (by simp)
        | some sw =>
          rw [hpn, Option.map_some'] at hn
          rw [← Option.some_inj.mp hn]
      rcases List.mem_cons.mp h with rfl | h2
      · exact horig
      · exact (ih st2 s h2).trans horig

/-- Every layout the permutation iterator yields from a class member stays in
the class. -/
theorem inClass_candidates (L M : Layout) (h : inClass L M) (depth : Nat) :
    ∀ c ∈ permCandidates M depth, inClass L c := by
  intro c hc
  unfold permCandidates at hc
  rw [List.mem_map] at hc
  obtain ⟨s, hs, rfl⟩ := hc
  have horig : s.orig = M := permStatesAux_orig _ _ _ hs
  show inClass L (applySwapIdxPairs s.orig s.swap_idx)
  rw [horig]
  exact inClass_applySwaps L s.swap_idx.length s.swap_idx (Nat.le_refl _) M h

/-- All lists of a given length over a given alphabet. -/
def listsOfLen (al : List Char) : Nat → List (List Char)
  | 0 => [[]]
  | n + 1 => al.flatMap fun c => (listsOfLen al n).map fun l => c :: l

theorem mem_listsOfLen (al : List Char) :
    ∀ (n : Nat) (l : List Char), l.length = n → (∀ c ∈ l, c ∈ al) →
      l ∈ listsOfLen al n := by
  intro n
  induction n with
  | zero =>
    intro l hlen hmem
    rw [List.length_eq_zero] at hlen
    subst hlen
    exact List.mem_singleton.mpr rfl
  | succ n ih =>
    intro l hlen hmem
    cases l with
    | nil => simp at hlen
    | cons c rest =>
      show c :: rest ∈ al.flatMap fun c => (listsOfLen al n).map fun l => c :: l
      rw [List.mem_flatMap]
      refine ⟨c, hmem c (List.mem_cons_self _ _), ?_⟩
      rw [List.mem_map]
      exact ⟨rest,
        ih rest (by simpa using hlen) (fun x hx => hmem x (List.mem_cons_of_mem _ hx)),
        rfl⟩

/-- An exhaustive (finite) enumeration of the class of `L`. -/
def classList (L : Layout) : List Layout :=
  (listsOfLen (layoutAlphabet L) L.lower.length).flatMap fun lo =>
    (listsOfLen (layoutAlphabet L) L.upper.length).map fun up => ⟨lo, up⟩

theorem mem_classList (L M : Layout) (h : inClass L M) : M ∈ classList L := by
  obtain ⟨h1, h2, h3, h4⟩ := h
  unfold classList
  rw [List.mem_flatMap]
  refine ⟨M.lower, mem_listsOfLen _ _ _ h1 h3, ?_⟩
  rw [List.mem_map]
  exact ⟨M.upper, mem_listsOfLen _ _ _ h2 h4, rfl⟩

/-- Every non-detailed scaled penalty the search can ever assign to a layout
of the class of `L`. -/
def penList (qt : QuartadList) (len : Nat) (L : Layout) : List ℚ :=
  (classList L).filterMap fun M =>
    (calculatePenalty qt len M initPenalties false).map fun p => p.2.1

theorem mem_penList (qt : QuartadList) (len : Nat) (L M : Layout)
    (h : inClass L M) (rc : ℚ × ℚ × List KeyPenaltyResult)
    (hrc : calculatePenalty qt len M initPenalties false = some rc) :
    rc.2.1 ∈ penList qt len L := by
  unfold penList
  rw [List.mem_filterMap]
  exact ⟨M, mem_classList L M h, by rw [hrc, Option.map_some']⟩

/-- The termination measure: how many distinct achievable penalties lie
strictly below the current one. -/
def penMeasure (qt : QuartadList) (len : Nat) (L : Layout) (p : ℚ) : Nat :=
  ((penList qt len L).toFinset.filter fun q => q < p).card

theorem penMeasure_lt (qt : QuartadList) (len : Nat) (L : Layout) (p p2 : ℚ)
    (hlt : p2 < p) (hmem : p2 ∈ penList qt len L) :
    penMeasure qt len L p2 < penMeasure qt len L p := by
  have hsub : (penList qt len L).toFinset.filter (fun q => q < p2) ⊆
      (penList qt len L).toFinset.filter (fun q => q < p) := by
    intro x hx
    rw [Finset.mem_filter] at hx ⊢
    exact ⟨hx.1, lt_trans hx.2 hlt⟩
  have hmem2 : p2 ∈ (penList qt len L).toFinset.filter (fun q => q < p) := by
    rw [Finset.mem_filter, List.mem_toFinset]
    exact ⟨hmem, hlt⟩
  have hnot : p2 ∉ (penList qt len L).toFinset.filter (fun q => q < p2) := by
    rw [Finset.mem_filter]
    rintro ⟨h5, h6⟩
    exact lt_irrefl _ h6
  exact Finset.card_lt_card ((Finset.ssubset_iff_of_subset hsub).mpr ⟨p2, hmem2, hnot⟩)

theorem roundStep_panic (qt : QuartadList) (len cap : Nat)
    (best : List BestLayoutsEntry) (vis : List Layout) (c : Layout)
    (h : c ∉ vis) (hsc : calculatePenalty qt len c initPenalties false = none) :
    roundStep qt len cap (some (best, vis)) c = none := by
  show (if c ∈ vis then some (best, vis)
    else (calculatePenalty qt len c initPenalties false).map fun p =>
      (truncateToCap (listInsertOrdered best ⟨c, p.2.1⟩) cap, c :: vis)) = none
  rw [if_neg h, hsc]
  rfl

theorem foldl_roundStep_none (qt : QuartadList) (len cap : Nat) :
    ∀ cs : List Layout, cs.foldl (roundStep qt len cap) none = none := by
  intro cs
  induction cs with
  | nil => rfl
  | cons c rest ih =>
    rw [List.foldl_cons]
    have hstep : roundStep qt len cap none c = none := rfl
    rw [hstep]
    exact ih

/-- One round of refine either panics or produces a best list whose every
entry records a scored member of the candidate property. -/
theorem foldl_round_entries (qt : QuartadList) (len cap : Nat) (P : Layout → Prop) :
    ∀ (cs : List Layout) (bv : List BestLayoutsEntry × List Layout),
      (∀ c ∈ cs, P c) →
      (∀ e ∈ bv.1, P e.layout ∧ ∃ rc : ℚ × ℚ × List KeyPenaltyResult,
        calculatePenalty qt len e.layout initPenalties false = some rc ∧
        e.penalty = rc.2.1) →
      cs.foldl (roundStep qt len cap) (some bv) = none ∨
      ∃ bl vis, cs.foldl (roundStep qt len cap) (some bv) = some (bl, vis) ∧
        ∀ e ∈ bl, P e.layout ∧ ∃ rc : ℚ × ℚ × List KeyPenaltyResult,
          calculatePenalty qt len e.layout initPenalties false = some rc ∧
          e.penalty = rc.2.1 := by
  intro cs
  induction cs with
  | nil =>
    intro bv hP hQ
    obtain ⟨b1, b2⟩ := bv
    exact Or.inr ⟨b1, b2, rfl, hQ⟩
  | cons c rest ih =>
    intro bv hP hQ
    obtain ⟨b1, b2⟩ := bv
    rw [List.foldl_cons]
    by_cases hv : c ∈ b2
    · rw [roundStep_visited qt len cap b1 b2 c hv]
      exact ih (b1, b2) (fun x hx => hP x (List.mem_cons_of_mem _ hx)) hQ
    · cases hsc : calculatePenalty qt len c initPenalties false with
      | none =>
        left
        rw [roundStep_panic qt len cap b1 b2 c hv hsc]
        exact foldl_roundStep_none qt len cap rest
      | some rc =>
        rw [roundStep_new qt len cap b1 b2 c hv rc hsc]
        refine ih (truncateToCap (listInsertOrdered b1 ⟨c, rc.2.1⟩) cap, c :: b2)
          (fun x hx => hP x (List.mem_cons_of_mem _ hx)) ?_
        intro e he
        rw [truncateToCap_eq_take] at he
        rcases mem_listInsertOrdered.mp (List.take_subset _ _ he) with rfl | he2
        · exact ⟨hP c (List.mem_cons_self _ _), rc, hsc, rfl⟩
        · exact hQ e he2

/-- Each outer-loop step of refine panics, reports the current layout as
winner, or moves to a class member of strictly smaller achievable penalty. -/
theorem stepRefine_cases (qt : QuartadList) (len cap depth : Nat) (L : Layout)
    (st : RefineState) (hcur : inClass L st.curr) :
    stepRefine qt len cap depth st = none ∨
    stepRefine qt len cap depth st = some (Sum.inr st.curr) ∨
    ∃ st2, stepRefine qt len cap depth st = some (Sum.inl st2) ∧
      inClass L st2.curr ∧ st2.currPenalty < st.currPenalty ∧
      st2.currPenalty ∈ penList qt len L := by
  rcases foldl_round_entries qt len cap (inClass L) (permCandidates st.curr depth)
      ([], st.visited) (inClass_candidates L st.curr hcur depth)
      (fun e he => absurd he (List.not_mem_nil e)) with hN | ⟨bl, vis, hfold, hok⟩
  · left
    unfold stepRefine refineRound
    rw [hN]
    rfl
  · have hroundEq : refineRound qt len cap depth st = some (bl, vis) := by
      unfold refineRound
      exact hfold
    cases bl with
    | nil =>
      left
      unfold stepRefine
      rw [hroundEq]
      rfl
    | cons best tl =>
      obtain ⟨hbc, rc, hrc, hpen⟩ := hok best (List.mem_cons_self _ _)
      by_cases hle : st.currPenalty ≤ best.penalty
      · right; left
        unfold stepRefine
        rw [hroundEq]
        simp only [Option.some_bind, List.head?_cons]
        rw [if_pos hle]
      · right; right
        refine ⟨⟨best.layout, best.penalty, vis⟩, ?_, hbc, not_le.mp hle, ?_⟩
        · unfold stepRefine
          rw [hroundEq]
          simp only [Option.some_bind, List.head?_cons]
          rw [if_neg hle]
        · show best.penalty ∈ penList qt len L
          rw [hpen]
          exact mem_penList qt len L best.layout hbc rc hrc

theorem refineStatus_one (qt : QuartadList) (len cap depth : Nat) (st : RefineState) :
    refineStatus qt len cap depth 1 st = stepRefine qt len cap depth st := rfl

theorem refineStatus_succ (qt : QuartadList) (len cap depth n : Nat) (st : RefineState) :
    refineStatus qt len cap depth (n + 1) st =
      match refineStatus qt len cap depth n st with
      | some (Sum.inl s) => stepRefine qt len cap depth s
      | other => other := rfl

theorem refineStatus_shift (qt : QuartadList) (len cap depth : Nat)
    (st st2 : RefineState) (h : stepRefine qt len cap depth st = some (Sum.inl st2)) :
    ∀ n, refineStatus qt len cap depth (n + 1) st =
      refineStatus qt len cap depth n st2 := by
  intro n
  induction n with
  | zero =>
    rw [refineStatus_one, h]
    rfl
  | succ n ih =>
    rw [refineStatus_succ qt len cap depth (n + 1) st, ih,
      ← refineStatus_succ qt len cap depth n st2]

theorem refineTerminal_none : refineTerminal none := fun s h => Option.noConfusion h

theorem refineTerminal_inr (M : Layout) : refineTerminal (some (Sum.inr M)) :=
  fun s h => Sum.noConfusion (Option.some_inj.mp h)

theorem refineStatus_term (qt : QuartadList) (len cap depth : Nat) (L : Layout) :
    ∀ (k : Nat) (st : RefineState), inClass L st.curr →
      penMeasure qt len L st.currPenalty < k →
      ∃ n, refineTerminal (refineStatus qt len cap depth n st) := by
  intro k
  induction k with
  | zero => intro st h1 h2; omega
  | succ k ih =>
    intro st h1 h2
    rcases stepRefine_cases qt len cap depth L st h1 with h0 | h0 |
      ⟨st2, hstep, hc2, hlt, hmem⟩
    · exact ⟨1, by rw [refineStatus_one, h0]; exact refineTerminal_none⟩
    · exact ⟨1, by rw [refineStatus_one, h0]; exact refineTerminal_inr _⟩
    · have hm2 : penMeasure qt len L st2.currPenalty < k := by
        have := penMeasure_lt qt len L st.currPenalty st2.currPenalty hlt hmem
        omega
      obtain ⟨n, hn⟩ := ih st2 hc2 hm2
      exact ⟨n + 1,
        by rw [refineStatus_shift qt len cap depth st st2 hstep n]; exact hn⟩

/-- C7. For every quartad table, corpus length, initial layout, capacity and
swap depth, refine terminates: after some finite number of outer-loop rounds
it has either reported a winner or panicked, because each continuing round
strictly decreases the current penalty within the finite set of penalties
achievable on the finite swap-reachable class of the initial layout. -/
theorem refine_terminates (qt : QuartadList) (len : Nat) (L : Layout)
    (cap depth : Nat) :
    ∃ n, refineTerminal (refineFull qt len L cap depth n) := by
  cases hinit : refineInit qt len L with
  | none =>
    refine ⟨0, ?_⟩
    unfold refineFull
    rw [hinit]
    exact refineTerminal_none
  | some st0 =>
    have hcur : inClass L st0.curr := by
      unfold refineInit at hinit
      cases hc : calculatePenalty qt len L initPenalties true with
      | none => rw [hc] at hinit; exact absurd hinit (by simp)
      | some r =>
        rw [hc, Option.map_some'] at hinit
        rw [← Option.some_inj.mp hinit]
        exact inClass_refl L
    obtain ⟨n, hn⟩ := refineStatus_term qt len cap depth L
      (penMeasure qt len L st0.currPenalty + 1) st0 hcur (Nat.lt_succ_self _)
    refine ⟨n, ?_⟩
    unfold refineFull
    rw [hinit]
    exact hn

end Keygen
